import Mathlib

/-!
Verification development for the unfazed core: a shallow embedding of
src/unfazed/informative_site_finder.py and src/unfazed/read_collector.py.

Modelling conventions:
* Python dicts become association lists (`Dict`) preserving insertion order,
  since the source iterates dicts in insertion order.
* Python floats become exact unnormalized rationals (Frac).
* A Python function that can raise an uncaught exception is modelled as
  returning an `Option`, with `none` standing for the exception.
* Genotype codes, SEX_KEY and the PAR tables live in the utils module that is
  not part of the sources; they are modelled from the spec where indicated.
-/

/-- Association list dictionary preserving insertion order, the model of a
Python dict. -/
abbrev Dict (α β : Type) : Type := List (α × β)

/-- Lookup of a key, the model of `d[k]` succeeding and of `k in d`. -/
def dfind? {α β : Type} [DecidableEq α] (d : Dict α β) (k : α) : Option β :=
  (List.find? (fun p => p.1 = k) d).map (fun p => p.2)

/-- Lookup with a default value. -/
def dgetD {α β : Type} [DecidableEq α] (d : Dict α β) (k : α) (v : β) : β :=
  (dfind? d k).getD v

/-- Insert or replace: an existing key keeps its position, a new key goes to
the end, as in a Python dict assignment. -/
def dset {α β : Type} [DecidableEq α] (d : Dict α β) (k : α) (v : β) : Dict α β :=
  if (List.any d (fun p => p.1 = k)) then
    List.map (fun p => if p.1 = k then (p.1, v) else p) d
  else
    List.append d [(k, v)]

/-- Apply a function to the value at a key, if present; a missing key leaves
the dictionary unchanged. -/
def dmodify {α β : Type} [DecidableEq α] (d : Dict α β) (k : α) (f : β → β) : Dict α β :=
  List.map (fun p => if p.1 = k then (p.1, f p.2) else p) d

/-- Append one element to the list stored at a key, creating the key with a
fresh list first when absent: the `if key not in d: d[key] = []` then
`d[key].append(x)` idiom. -/
def dappend {α β : Type} [DecidableEq α] (d : Dict α (List β)) (k : α) (x : β) : Dict α (List β) :=
  dset d k (List.append (dgetD d k []) [x])

/-- Genotype codes of cyvcf2 gt_types. Modelled from the spec: the utils
module holding HOM_REF, HET, UNKNOWN and HOM_ALT is not among the sources;
the spec fixes the sum type. -/
inductive Gt where
  | homRef
  | het
  | unknown
  | homAlt
deriving DecidableEq, Repr

/-- Unnormalized rational number: the model of a Python float value. The
denominator is positive in every place the source builds one (divisions are
guarded), which the comparison operations assume. An unnormalized pair is
used so that every operation reduces in the kernel. -/
structure Frac where
  num : Int
  den : Int
deriving DecidableEq, Repr

/-- Fraction from an integer. -/
def Frac.ofInt (n : Int) : Frac := ⟨n, 1⟩

/-- Less-or-equal by cross multiplication (positive denominators). -/
def fle (a b : Frac) : Bool := a.num * b.den ≤ b.num * a.den

/-- Strictly-less by cross multiplication (positive denominators). -/
def flt (a b : Frac) : Bool := a.num * b.den < b.num * a.den

/-- Value equality by cross multiplication (positive denominators). -/
def feq (a b : Frac) : Bool := a.num * b.den = b.num * a.den

/-- Sum of two fractions. -/
def fadd (a b : Frac) : Frac := ⟨a.num * b.den + b.num * a.den, a.den * b.den⟩

/-- Difference of two fractions. -/
def fsub (a b : Frac) : Frac := ⟨a.num * b.den - b.num * a.den, a.den * b.den⟩

/-- Product of two fractions. -/
def fmul (a b : Frac) : Frac := ⟨a.num * b.num, a.den * b.den⟩

/-- Quotient of two fractions. -/
def fdiv (a b : Frac) : Frac := ⟨a.num * b.den, a.den * b.num⟩

/-- Absolute value of a fraction. -/
def fabs (a : Frac) : Frac := ⟨|a.num|, |a.den|⟩

/-- Floor of a fraction with positive denominator. -/
def ffloor (a : Frac) : Int := Int.fdiv a.num a.den

/-- Python int conversion: truncation toward zero. -/
def ftrunc (a : Frac) : Int := Int.tdiv a.num a.den

/-- Allele balance: alternate depth over total depth, as the source divides
floats. -/
def balance (alt ref : Int) : Frac := ⟨alt, ref + alt⟩

/-- Allele-balance bands and thresholds that the source installs as process
globals MIN_AB_HOMREF .. MIN_DEPTH at the top of find. -/
structure Tunables where
  minAbHomref : Frac
  maxAbHomref : Frac
  minAbHet : Frac
  maxAbHet : Frac
  minAbHomalt : Frac
  maxAbHomalt : Frac
  minGtQual : Frac
  minDepth : Int
deriving DecidableEq, Repr

/-- Pedigree record for one kid. Modelled from the spec contract: sex is an
integer with male = 1 and female = 2 (SEX_KEY lives in the missing utils
module). -/
structure PedEntry where
  dad : String
  mom : String
  sex : Int
deriving DecidableEq, Repr

/-- The pedigree mapping contract: every kid that appears resolves to an
entry. -/
def Pedigrees : Type := String → PedEntry

/-- Candidate informative site: the dict built incrementally in the source;
the kid_allele key is only ever present with a non-null value. -/
structure Candidate where
  pos : Int
  ref_allele : String
  alt_allele : String
  kid_allele : Option String
  alt_parent : String
  ref_parent : String
deriving DecidableEq, Repr

/-- Het bridging site. -/
structure Site where
  pos : Int
  ref_allele : String
  alt_allele : String
deriving DecidableEq, Repr

/-- De novo mutation record. The two annotation fields are Options because
the batch path only creates the keys when it has something to append, while
the per-DNM path always assigns them. -/
structure Denovo where
  chrom : String
  start : Int
  end_ : Int
  kid : String
  vartype : Option String
  candidate_sites : Option (List Candidate)
  het_sites : Option (List Site)
deriving DecidableEq, Repr

/-- Variant record: the slice of the cyvcf2 variant interface the source
reads. The start field is 0-based; POS is start + 1. -/
structure Variant where
  chrom : String
  start : Int
  REF : String
  ALT : List String
  gt_types : List Gt
  gt_ref_depths : List Int
  gt_alt_depths : List Int
  gt_quals : List Frac
deriving DecidableEq, Repr

/-- Variant callset: samples in FORMAT order, the stored variants, and the
chromosome naming convention. The pfx field models get_prefix from the spec
contract: the empty string or the string chr, by the convention of the
source file. -/
structure Vcf where
  samples : List String
  variants : List Variant
  pfx : String
deriving Repr

/-- Genotype of sample index i, with the unknown genotype as the
out-of-range default (the contract aligns the arrays with the samples). -/
def gtAt (gts : List Gt) (i : Nat) : Gt := List.getD gts i Gt.unknown

/-- Depth or quality of sample index i, defaulting to 0. -/
def intAt (l : List Int) (i : Nat) : Int := List.getD l i 0

/-- Quality of sample index i, defaulting to zero. -/
def fracAt (l : List Frac) (i : Nat) : Frac := List.getD l i ⟨0, 1⟩

/-- Embedding of is_high_quality_site: per-sample usability of a potential
informative site. Division is exact rational division; the source divides
floats, guarded by the depth check. -/
def is_high_quality_site (i : Nat) (ref_depths alt_depths : List Int)
    (genotypes : List Gt) (gt_quals : List Frac) (t : Tunables) : Bool :=
  let bands : Option (Frac × Frac) :=
    if gtAt genotypes i = Gt.homRef then some (t.minAbHomref, t.maxAbHomref)
    else if gtAt genotypes i = Gt.homAlt then some (t.minAbHomalt, t.maxAbHomalt)
    else if gtAt genotypes i = Gt.het then some (t.minAbHet, t.maxAbHet)
    else none
  match bands with
  | none => false
  | some (min_ab, max_ab) =>
    if flt (fracAt gt_quals i) t.minGtQual then false
    else if intAt ref_depths i + intAt alt_depths i < t.minDepth then false
    else
      let allele_bal : Frac := balance (intAt alt_depths i) (intAt ref_depths i)
      fle min_ab allele_bal && fle allele_bal max_ab

/-- Embedding of get_kid_allele: CNV kid-allele inference for DEL and DUP
de novos. Returns none where the source returns None. -/
def get_kid_allele (denovo : Denovo) (genotypes : List Gt)
    (ref_depths alt_depths : List Int) (kid_idx dad_idx mom_idx : Nat)
    (t : Tunables) : Option String :=
  if denovo.vartype = some "DEL" ∧ intAt ref_depths kid_idx + intAt alt_depths kid_idx > 4 then
    if gtAt genotypes kid_idx = Gt.homAlt then some "ref_parent"
    else if gtAt genotypes kid_idx = Gt.homRef then some "alt_parent"
    else none
  else if denovo.vartype = some "DUP" ∧ intAt ref_depths kid_idx > 2 ∧
      intAt alt_depths kid_idx > 2 ∧
      intAt ref_depths kid_idx + intAt alt_depths kid_idx > t.minDepth then
    if gtAt genotypes kid_idx = Gt.het then
      let kid_bal : Frac := balance (intAt alt_depths kid_idx) (intAt ref_depths kid_idx)
      let dad_bal : Frac := balance (intAt alt_depths dad_idx) (intAt ref_depths dad_idx)
      let mom_bal : Frac := balance (intAt alt_depths mom_idx) (intAt ref_depths mom_idx)
      if (flt (fadd dad_bal mom_bal) (Frac.ofInt 1) ∧ flt ⟨1, 2⟩ kid_bal) ∨
          (flt (Frac.ofInt 1) (fadd dad_bal mom_bal) ∧ flt kid_bal ⟨1, 2⟩) then
        none
      else if fle ⟨67, 100⟩ kid_bal then some "alt_parent"
      else if fle kid_bal ⟨33, 100⟩ then some "ref_parent"
      else none
    else none
  else none

/-- Python str.lower, mapped over the characters so that it reduces in the
kernel. -/
def strToLower (s : String) : String := String.mk (s.toList.map Char.toLower)

/-- Python str.strip with a character set: drop the given characters from
both ends. -/
def stripChars (cs : List Char) (s : String) : String :=
  String.mk (((s.toList.dropWhile (fun c => cs.contains c)).reverse.dropWhile
    (fun c => cs.contains c)).reverse)

/-- Embedding of the strip chr idiom of the source. -/
def stripChr (s : String) : String := stripChars ['c', 'h', 'r'] s

/-- Pseudoautosomal region 1 per chromosome for GRCh37. Modelled from the
spec: the tables live in the missing utils module; the spec points at the
standard GRCh37 PAR coordinates. -/
def grch37_par1 (chrom : String) : Int × Int :=
  if chrom = "x" then (60001, 2699520) else (10001, 2649520)

/-- Pseudoautosomal region 2 per chromosome for GRCh37. Modelled from the
spec, as for region 1. -/
def grch37_par2 (chrom : String) : Int × Int :=
  if chrom = "x" then (154931044, 155260560) else (59034050, 59363566)

/-- Pseudoautosomal region 1 per chromosome for GRCh38. Modelled from the
spec, as for GRCh37. -/
def grch38_par1 (chrom : String) : Int × Int :=
  if chrom = "x" then (10001, 2781479) else (10001, 2781479)

/-- Pseudoautosomal region 2 per chromosome for GRCh38. Modelled from the
spec, as for GRCh37. -/
def grch38_par2 (chrom : String) : Int × Int :=
  if chrom = "x" then (155701383, 156030895) else (56887903, 57217415)

/-- Embedding of autophaseable: male X or Y variants outside the
pseudoautosomal regions are phased automatically. -/
def autophaseable (denovo : Denovo) (pedigrees : Pedigrees) (build : String) : Bool :=
  let chrom := stripChr (strToLower denovo.chrom)
  if ¬ (chrom = "y" ∨ chrom = "x") then false
  else if (pedigrees denovo.kid).sex ≠ 1 then false
  else if ¬ (build = "37" ∨ build = "38") then false
  else
    let par1 := if build = "37" then grch37_par1 chrom else grch38_par1 chrom
    let par2 := if build = "37" then grch37_par2 chrom else grch38_par2 chrom
    if (par1.1 ≤ denovo.start ∧ denovo.start ≤ par1.2) ∨
        (par2.1 ≤ denovo.start ∧ denovo.start ≤ par2.2) then false
    else true

/-- Stable insertion into a list sorted by an integer key: the new element
goes after all elements with a strictly smaller key and before the rest. -/
def insertByKey {α : Type} (key : α → Int) (x : α) : List α → List α
  | [] => [x]
  | y :: ys => if key y < key x then y :: insertByKey key x ys else x :: y :: ys

/-- Stable sort by an integer key, the model of Python sorted with a key
function. -/
def sortByKey {α : Type} (key : α → Int) (l : List α) : List α :=
  List.foldr (insertByKey key) [] l

/-- Complex-variant filter shared by find and multithread_find_many: more
than one ALT, a long REF, a spanning-deletion ALT or a long ALT. -/
def complex_variant (v : Variant) : Bool :=
  v.ALT.length ≠ 1 ∨ v.REF.length > 1 ∨ v.ALT.contains "*" ∨ (v.ALT.headD "").length > 1

/-- Region query of the variant source: the variants whose 1-based POS lies
in the closed interval of the region string. Models a cyvcf2 region
iterator over the simple variants the finder keeps. -/
def vcfQueryRegion (vcf : Vcf) (chrom : String) (a b : Int) : List Variant :=
  vcf.variants.filter (fun v => v.chrom = chrom ∧ a ≤ v.start + 1 ∧ v.start + 1 ≤ b)

/-- Embedding of get_position: the query intervals around one de novo. -/
def get_position (vcf : Vcf) (denovo : Denovo) (extra : Int) (whole_region : Bool) :
    List Variant :=
  let chrom := vcf.pfx ++ stripChr denovo.chrom
  if whole_region then
    vcfQueryRegion vcf chrom (denovo.start - extra) (denovo.end_ + extra)
  else
    List.append
      (vcfQueryRegion vcf chrom (denovo.start - extra) (denovo.start + extra))
      (if denovo.end_ - denovo.start > extra then
        vcfQueryRegion vcf chrom (denovo.end_ - extra) (denovo.end_ + extra)
      else [])

/-- Index of a sample in the FORMAT columns, the model of the sample_dict
zip. -/
def sampleIdx (vcf : Vcf) (s : String) : Option Nat :=
  List.findIdx? (fun x => x = s) vcf.samples

/-- Het-site capture condition shared verbatim by find and
add_good_candidate_variant: the kid is het and both parents pass the
quality predicate. -/
def hetCapture? (t : Tunables) (ki di mi : Nat) (v : Variant) : Option Site :=
  if gtAt v.gt_types ki = Gt.het ∧
      is_high_quality_site di v.gt_ref_depths v.gt_alt_depths v.gt_types v.gt_quals t ∧
      is_high_quality_site mi v.gt_ref_depths v.gt_alt_depths v.gt_types v.gt_quals t then
    some ⟨v.start, v.REF, v.ALT.headD ""⟩
  else none

/-- Candidate evaluation block shared verbatim by the loop body of find and
by add_good_candidate_variant: CNV or standard kid check, parental quality,
parent assignment, hemizygous-kid filter. Returns the accepted candidate or
none for any of the continue paths. -/
def findCandidate (ped : Pedigrees) (t : Tunables) (whole_region : Bool)
    (kid : String) (denovo : Denovo) (ki di mi : Nat) (v : Variant) : Option Candidate :=
  let gts := v.gt_types
  let rd := v.gt_ref_depths
  let ad := v.gt_alt_depths
  let gq := v.gt_quals
  let base : Candidate := ⟨v.start, v.REF, v.ALT.headD "", none, "", ""⟩
  let step1 : Option Candidate :=
    if whole_region ∧ denovo.vartype.isSome then
      match get_kid_allele denovo gts rd ad ki di mi t with
      | none => none
      | some ka => some { base with kid_allele := some ka }
    else if gtAt gts ki ≠ Gt.het ∨ ¬ is_high_quality_site ki rd ad gts gq t then none
    else some base
  match step1 with
  | none => none
  | some cand =>
    if ¬ (is_high_quality_site di rd ad gts gq t ∧ is_high_quality_site mi rd ad gts gq t) then
      none
    else
      let dadGt := gtAt gts di
      let momGt := gtAt gts mi
      let dad := (ped kid).dad
      let mom := (ped kid).mom
      let assigned : Option (String × String) :=
        if (dadGt = Gt.het ∨ dadGt = Gt.homAlt) ∧ momGt = Gt.homRef then some (dad, mom)
        else if (momGt = Gt.het ∨ momGt = Gt.homAlt) ∧ dadGt = Gt.homRef then some (mom, dad)
        else if momGt = Gt.het ∧ dadGt = Gt.homAlt then some (dad, mom)
        else if dadGt = Gt.het ∧ momGt = Gt.homAlt then some (mom, dad)
        else none
      match assigned with
      | none => none
      | some (ap, rp) =>
        let kidGt := gtAt gts ki
        let hemiOk : Bool :=
          if kidGt = Gt.homAlt ∨ kidGt = Gt.homRef then
            let parent_gts := [dadGt, momGt]
            if parent_gts.contains Gt.het ∧
                (parent_gts.contains Gt.homAlt ∨ parent_gts.contains Gt.homRef) then
              ¬ parent_gts.any (fun pg => (pg = Gt.homAlt ∨ pg = Gt.homRef) ∧ kidGt = pg)
            else true
          else true
        if hemiOk then some { cand with alt_parent := ap, ref_parent := rp } else none

/-- Small-event exclusion shared by both paths: for a de novo narrower than
20 bases, a variant whose 0-based start lies in the Python half-open range
from start to end is ignored. -/
def smallEventHit (denovo : Denovo) (v : Variant) : Bool :=
  denovo.end_ - denovo.start < 20 ∧ denovo.start ≤ v.start ∧ v.start < denovo.end_

/-- One iteration of the variant loop inside find, for one variant: the
per-DNM path. The accumulator carries candidate_sites and het_sites in
order of appending. -/
def findStep (ped : Pedigrees) (t : Tunables) (whole_region : Bool) (denovo : Denovo)
    (ki di mi : Nat) (acc : List Candidate × List Site) (v : Variant) :
    List Candidate × List Site :=
  if complex_variant v then acc
  else if v.chrom = "X" ∧ (ped denovo.kid).sex = 1 then acc
  else if smallEventHit denovo v then acc
  else
    let hets := match hetCapture? t ki di mi v with
      | some s => List.append acc.2 [s]
      | none => acc.2
    match findCandidate ped t whole_region denovo.kid denovo ki di mi v with
    | some cand => (List.append acc.1 [cand], hets)
    | none => (acc.1, hets)

/-- Per-DNM annotation by find: skip autophaseable or incomplete trios,
otherwise stream the region and assign the two sorted lists. -/
def findOne (ped : Pedigrees) (vcf : Vcf) (search_dist : Int) (build : String)
    (t : Tunables) (whole_region : Bool) (denovo : Denovo) : Denovo :=
  if autophaseable denovo ped build then denovo
  else
    match sampleIdx vcf denovo.kid, sampleIdx vcf (ped denovo.kid).dad,
        sampleIdx vcf (ped denovo.kid).mom with
    | some ki, some di, some mi =>
      let res := (get_position vcf denovo search_dist whole_region).foldl
        (findStep ped t whole_region denovo ki di mi) ([], [])
      { denovo with
        candidate_sites := some (sortByKey Candidate.pos res.1),
        het_sites := some (sortByKey Site.pos res.2) }
    | _, _, _ => denovo

/-- Three-level lookup into vars_by_sample; none models the KeyError a
missing key would raise. -/
def dfind3? (vbs : Dict String (Dict String (Dict Int (List Denovo))))
    (kid chrom : String) (pos : Int) : Option (List Denovo) :=
  (dfind? vbs kid).bind (fun cd => (dfind? cd chrom).bind (fun pd => dfind? pd pos))

/-- Samples-by-location index type. -/
abbrev SBL : Type := Dict String (Dict Int (List String))

/-- Vars-by-sample index type; the batch path stores its annotations inside
this structure. -/
abbrev VBS : Type := Dict String (Dict String (Dict Int (List Denovo)))

/-- Staged decidable equality so that deep index types stay decidable. -/
instance : DecidableEq (Dict Int (List Denovo)) := inferInstance

/-- Staged decidable equality for the middle index layer. -/
instance : DecidableEq (Dict String (Dict Int (List Denovo))) := inferInstance

/-- Staged decidable equality for vars_by_sample. -/
instance : DecidableEq VBS := inferInstance

/-- Chromosome ranges index type. -/
abbrev CR : Type := Dict String (Int × Int)

/-- Key of one de novo bucket: sample, chromosome, start. -/
abbrev CKey : Type := String × String × Int

/-- Append a sample to samples_by_location at one location. -/
def sblAppend (sbl : SBL) (chrom : String) (loc : Int) (s : String) : SBL :=
  dset sbl chrom (dappend (dgetD sbl chrom []) loc s)

/-- Append a de novo to vars_by_sample at its key. -/
def vbsAppend (vbs : VBS) (kid chrom : String) (start : Int) (d : Denovo) : VBS :=
  dset vbs kid
    (let cd := dgetD vbs kid []
     dset cd chrom (dappend (dgetD cd chrom []) start d))

/-- Apply a function to one bucket of vars_by_sample, in place. -/
def vbsModify (vbs : VBS) (kid chrom : String) (pos : Int)
    (f : List Denovo → List Denovo) : VBS :=
  dmodify vbs kid (fun cd => dmodify cd chrom (fun pd => dmodify pd pos f))

/-- Accumulator of create_lookups. -/
structure Lookups where
  sbl : SBL
  vbs : VBS
  cr : CR
  auto : List Denovo
  rest : List Denovo

/-- One iteration of the loop of create_lookups, for one de novo. -/
def create_lookups_step (ped : Pedigrees) (build : String) (acc : Lookups)
    (denovo : Denovo) : Lookups :=
  if autophaseable denovo ped build then { acc with auto := List.append acc.auto [denovo] }
  else
    let chrom := denovo.chrom
    let start := denovo.start
    let stop := denovo.end_
    let sample := denovo.kid
    let cur : Int × Int := dgetD acc.cr chrom (start, stop)
    let cur : Int × Int :=
      (if start < cur.1 then start else cur.1, if stop > cur.2 then stop else cur.2)
    let cr := dset acc.cr chrom cur
    let vbs := vbsAppend acc.vbs sample chrom start denovo
    let sbl := sblAppend acc.sbl chrom start sample
    let sbl := if stop - start > 2 then sblAppend sbl chrom stop sample else sbl
    { sbl := sbl, vbs := vbs, cr := cr, auto := acc.auto,
      rest := List.append acc.rest [denovo] }

/-- Embedding of create_lookups: the three indices plus the autophaseable
and remaining de novo lists, in input order. -/
def create_lookups (dnms : List Denovo) (ped : Pedigrees) (build : String) : Lookups :=
  dnms.foldl (create_lookups_step ped build) ⟨[], [], [], [], []⟩

/-- Inner loops of the whole-region branch of get_close_vars for one
location key: every sample listed there is dereferenced through
vars_by_sample, and a missing key is the modelled KeyError (none). -/
def close_vars_at_loc (pos search_dist : Int) (chrom : String) (vbs : VBS)
    (loc : Int) (samples : List String) : Option (List CKey) :=
  (samples.mapM (fun s =>
    match dfind3? vbs s chrom loc with
    | none => none
    | some ds => some (ds.filterMap (fun (d : Denovo) =>
        if d.start - search_dist ≤ pos ∧ pos ≤ d.end_ + search_dist then
          some ((s, chrom, d.start) : CKey)
        else none)))).map List.flatten

/-- Embedding of get_close_vars: the proximity query of the batch path.
Returns none when the whole-region branch raises its KeyError. -/
def get_close_vars (chrom : String) (pos : Int) (sbl : SBL) (vbs : VBS)
    (search_dist : Int) (whole_region : Bool) : Option (List CKey) :=
  match dfind? sbl chrom with
  | none => some []
  | some locs =>
    if ¬ whole_region then
      some (locs.flatMap (fun p =>
        if p.1 - search_dist ≤ pos ∧ pos ≤ p.1 + search_dist then
          p.2.map (fun s => (s, chrom, p.1))
        else []))
    else
      (locs.mapM (fun p => close_vars_at_loc pos search_dist chrom vbs p.1 p.2)).map
        List.flatten

/-- Embedding of get_family_indexes: the three FORMAT indices, or none when
any trio member is missing from the callset. -/
def get_family_indexes (kid : String) (ped : Pedigrees) (vcfSamples : List String) :
    Option (Nat × Nat × Nat) :=
  match List.findIdx? (fun x => x = kid) vcfSamples,
      List.findIdx? (fun x => x = (ped kid).dad) vcfSamples,
      List.findIdx? (fun x => x = (ped kid).mom) vcfSamples with
  | some ki, some di, some mi => some (ki, di, mi)
  | _, _, _ => none

/-- Per-denovo body of the loop of add_good_candidate_variant: identical to
the per-variant body of find except that the male-X exclusion of find is
absent here. The het append happens before the candidate decision, as in
the source; kid is the sample of the dn_key used for the pedigree
lookups. -/
def processDenovoVariant (variant : Variant) (ped : Pedigrees) (whole_region : Bool)
    (ki di mi : Nat) (t : Tunables) (build : String) (kid : String) (d : Denovo) : Denovo :=
  if autophaseable d ped build then d
  else if smallEventHit d variant then d
  else
    let d1 := match hetCapture? t ki di mi variant with
      | some s => { d with het_sites := some (List.append (d.het_sites.getD []) [s]) }
      | none => d
    match findCandidate ped t whole_region kid d ki di mi variant with
    | some cand =>
      { d1 with candidate_sites := some (List.append (d1.candidate_sites.getD []) [cand]) }
    | none => d1

/-- Embedding of add_good_candidate_variant: annotate every de novo in the
bucket of the key with this variant. The early returns of the source leave
the index unchanged. -/
def add_good_candidate_variant (variant : Variant) (vbs : VBS) (dn_key : CKey)
    (ped : Pedigrees) (whole_region : Bool) (vcfSamples : List String)
    (build : String) (t : Tunables) : VBS :=
  let kid := dn_key.1
  let chrom := dn_key.2.1
  let pos := dn_key.2.2
  match get_family_indexes kid ped vcfSamples with
  | none => vbs
  | some (ki, di, mi) =>
    match dfind3? vbs kid chrom pos with
    | none => vbs
    | some _ =>
      vbsModify vbs kid chrom pos
        (List.map (processDenovoVariant variant ped whole_region ki di mi t build kid))

/-- Per-variant body of the loop of multithread_find_many: the complex
filter, the proximity query, then one add_good_candidate_variant call per
returned key. A none propagates the KeyError of the proximity query. -/
def batch_process_variant (ped : Pedigrees) (whole_region : Bool)
    (vcfSamples : List String) (build : String) (t : Tunables) (sbl : SBL)
    (search_dist : Int) (vbs : VBS) (v : Variant) : Option VBS :=
  if complex_variant v then some vbs
  else
    match get_close_vars v.chrom (v.start + 1) sbl vbs search_dist whole_region with
    | none => none
    | some keys =>
      some (keys.foldl (fun vb k =>
        add_good_candidate_variant v vb k ped whole_region vcfSamples build t) vbs)

/-- Embedding of multithread_find_many for one chromosome: one linear scan
of the callset over the chromosome range widened by the search distance. -/
def multithread_find_many (vcf : Vcf) (chrom : String) (chrom_range : Int × Int)
    (sbl : SBL) (vbs : VBS) (search_dist : Int) (ped : Pedigrees)
    (whole_region : Bool) (build : String) (t : Tunables) : Option VBS :=
  let search_chrom := vcf.pfx ++ stripChr chrom
  let vs := vcfQueryRegion vcf search_chrom
    (chrom_range.1 - search_dist) (chrom_range.2 + search_dist)
  vs.foldlM (batch_process_variant ped whole_region vcf.samples build t sbl search_dist) vbs

/-- First-occurrence deduplication: the model of the chromosome set of
find_many, with its iteration order fixed to first appearance. -/
def dedupKeep (l : List String) : List String :=
  l.foldl (fun acc c => if acc.contains c then acc else List.append acc [c]) []

/-- Final per-denovo sorting of the batch path: each present annotation list
is sorted by position. -/
def sortDenovoAnnots (d : Denovo) : Denovo :=
  { d with
    candidate_sites := d.candidate_sites.map (sortByKey Candidate.pos),
    het_sites := d.het_sites.map (sortByKey Site.pos) }

/-- Collection loop at the end of find_many: walk vars_by_sample in
insertion order and emit every stored de novo. -/
def collectAnnotated (vbs : VBS) : List Denovo :=
  vbs.flatMap (fun sp => sp.2.flatMap (fun cp => cp.2.flatMap (fun pp =>
    pp.2.map sortDenovoAnnots)))

/-- Embedding of find_many with the sequential (threads = 1) schedule; the
chromosome range of a processed chromosome always exists, so the dgetD
default is never read. -/
def find_many (dnms : List Denovo) (ped : Pedigrees) (vcf : Vcf) (search_dist : Int)
    (build : String) (t : Tunables) (whole_region : Bool) : Option (List Denovo) := do
  let lk := create_lookups dnms ped build
  let chroms := dedupKeep (lk.rest.map Denovo.chrom)
  let vbs ← chroms.foldlM (fun vb c =>
    multithread_find_many vcf c (dgetD lk.cr c (0, 0)) lk.sbl vb search_dist ped
      whole_region build t) lk.vbs
  pure (List.append (collectAnnotated vbs) lk.auto)

/-- Embedding of find: the dispatch of the public entry point. The outer
Option models an uncaught exception; the inner Option models the bare
Python return None for an empty input list. -/
def find (dnms : List Denovo) (ped : Pedigrees) (vcf : Vcf) (search_dist : Int)
    (build : String) (multithread_proc_min : Int) (t : Tunables)
    (whole_region : Bool) : Option (Option (List Denovo)) :=
  if (dnms.length : Int) ≥ multithread_proc_min then
    (find_many dnms ped vcf search_dist build t whole_region).map some
  else if dnms.length ≤ 0 then some none
  else some (some (dnms.map (findOne ped vcf search_dist build t whole_region)))

/-- List starts with the given pattern. -/
def startsWithList {α : Type} [DecidableEq α] : List α → List α → Bool
  | [], _ => true
  | _ :: _, [] => false
  | a :: as, b :: bs => a = b && startsWithList as bs

/-- List contains the given pattern as a contiguous sublist. -/
def hasSubList {α : Type} [DecidableEq α] (pat : List α) : List α → Bool
  | [] => pat.isEmpty
  | b :: bs => startsWithList pat (b :: bs) || hasSubList pat bs

/-- Python substring containment test, s contains sub. -/
def containsSub (s sub : String) : Bool := hasSubList sub.toList s.toList

/-- Replace every non-overlapping occurrence of a pattern, left to right. -/
def replaceSubList {α : Type} [DecidableEq α] (pat rep : List α) : List α → List α
  | [] => []
  | b :: bs =>
    if pat ≠ [] ∧ startsWithList pat (b :: bs) then
      List.append rep (replaceSubList pat rep (List.drop (pat.length - 1) bs))
    else b :: replaceSubList pat rep bs
termination_by l => l.length
decreasing_by
  · simp only [List.length_drop, List.length_cons]
    omega
  · simp only [List.length_cons]
    omega

/-- Python str.replace over all occurrences. -/
def strReplace (s pat rep : String) : String :=
  String.mk (replaceSubList pat.toList rep.toList s.toList)

/-- Constants of read_collector. -/
def MILLION : Nat := 1000000

/-- Minimum mapping quality of read_collector. -/
def MIN_MAPQ : Int := 1

/-- Standard deviation multiplier of the insert estimator. -/
def STDEV_COUNT : Int := 3

/-- Assumed read length of read_collector. -/
def READLEN : Int := 151

/-- Split-alignment clip margin of read_collector. -/
def SPLITTER_ERR_MARGIN : Int := 5

/-- Per-site read cap of the haplotype grouper. -/
def EXTENDED_RB_READ_GOAL : Nat := 100

/-- Read record: the slice of the pysam AlignedSegment interface the source
reads. The ref_positions field is get_reference_positions with full_length,
so it holds one entry per query base, none at soft-clipped or inserted
bases; query_sequence is the matching list of one-character strings. -/
structure RRead where
  query_name : String
  chrom : String
  reference_start : Int
  reference_end : Int
  ref_positions : List (Option Int)
  query_sequence : List String
  is_qcfail : Bool
  is_unmapped : Bool
  is_duplicate : Bool
  is_secondary : Bool
  is_supplementary : Bool
  mate_is_unmapped : Bool
  mapping_quality : Int
  mate_same_ref : Bool
  tlen : Int
  has_SA : Bool
deriving DecidableEq, Repr

/-- Alignment source: reference names of the header, the read stream in file
order, and the mate lookup keyed by query name. A missing mate models the
ValueError of pysam mate. -/
structure Bam where
  refNames : List String
  reads : List RRead
  mates : Dict String RRead
deriving Repr

/-- Region record handed to the read collectors. -/
structure Region where
  chrom : String
  start : Int
  end_ : Int
deriving DecidableEq, Repr

/-- Two haplotype lists of reads, the return shape of the collectors. -/
structure InformativeReads where
  alt : List RRead
  ref : List RRead
deriving DecidableEq, Repr

/-- Embedding of the per-read insert-size computation of the estimator
loop: the loop body appends for indices 0 through MILLION inclusive, so at
most MILLION + 1 alignments are examined. -/
def insert_sizes_of (tlens : List Int) : List Int :=
  (tlens.take (MILLION + 1)).map (fun tl => |tl - READLEN * 2|)

/-- Numpy percentile with linear interpolation on a sorted copy. -/
def npPercentile (l : List Int) (q : Frac) : Frac :=
  let s := sortByKey (fun x => x) l
  match s with
  | [] => ⟨0, 1⟩
  | _ =>
    let n := s.length
    let r : Frac := fdiv (fmul q (Frac.ofInt ((n : Int) - 1))) (Frac.ofInt 100)
    let i : Nat := (ffloor r).toNat
    let frac : Frac := fsub r (Frac.ofInt (ffloor r))
    if i + 1 < n then
      fadd (Frac.ofInt (intAt s i)) (fmul frac (Frac.ofInt (intAt s (i + 1) - intAt s i)))
    else Frac.ofInt (intAt s i)

/-- Embedding of estimate_concordant_insert_len. The source rebinds
insert_sizes to the 99.5th-percentile scalar, so the mean it then takes is
that scalar and the standard deviation it then takes is zero. -/
def estimate_concordant_insert_len (tlens : List Int) : Frac :=
  let p : Frac := npPercentile (insert_sizes_of tlens) ⟨995, 10⟩
  let frag_len : Int := ftrunc p
  let stdev : Frac := ⟨0, 1⟩
  fadd (Frac.ofInt frag_len) (fmul stdev (Frac.ofInt STDEV_COUNT))

/-- Modelled from the spec: the intended truncation of the insert-size
distribution at its 99.5th percentile, which the comment of the source
announces (filter out the top .1 percent) but the code does not perform. -/
def specTruncatedSizes (tlens : List Int) : List Int :=
  (insert_sizes_of tlens).filter
    (fun x => fle (Frac.ofInt x) (npPercentile (insert_sizes_of tlens) ⟨995, 10⟩))

/-- Mean of an integer list as a fraction. -/
def listMean (l : List Int) : Frac := ⟨l.sum, (l.length : Int)⟩

/-- Population variance of an integer list as a fraction, written with the
common denominator cubed. -/
def listVariance (l : List Int) : Frac :=
  ⟨(l.map (fun x => (x * (l.length : Int) - l.sum) ^ 2)).sum, ((l.length : Int) ^ 3)⟩

/-- Embedding of goodread. -/
def goodread (read : RRead) : Bool :=
  ¬ (read.is_qcfail ∨ read.is_unmapped ∨ read.is_duplicate ∨
    read.mapping_quality < MIN_MAPQ ∨ read.is_secondary ∨ read.is_supplementary ∨
    read.mate_is_unmapped ∨ ¬ read.mate_same_ref)

/-- Embedding of get_allele_at: the base the pair carries at a reference
position, from the read first and then from the mate; none models the
False return. -/
def get_allele_at (read : RRead) (mate : Option RRead) (pos : Int) : Option String :=
  match List.findIdx? (fun x => x = some pos) read.ref_positions with
  | some i => some (List.getD read.query_sequence i "")
  | none =>
    match mate with
    | some m =>
      match List.findIdx? (fun x => x = some pos) m.ref_positions with
      | some i => some (List.getD m.query_sequence i "")
      | none => none
    | none => none

/-- Fetch over a half-open region with rational bounds; none models the
ValueError of an unknown reference name. -/
def bamFetchQ (bam : Bam) (chrom : String) (a b : Frac) : Option (List RRead) :=
  if bam.refNames.contains chrom then
    some (bam.reads.filter (fun r => r.chrom = chrom ∧
      flt (Frac.ofInt r.reference_start) b ∧ flt a (Frac.ofInt r.reference_end)))
  else none

/-- Fetch with integer bounds. -/
def bamFetch (bam : Bam) (chrom : String) (a b : Int) : Option (List RRead) :=
  bamFetchQ bam chrom (Frac.ofInt a) (Frac.ofInt b)

/-- Haplotype label. -/
inductive Hap where
  | alt
  | ref
deriving DecidableEq, Repr

/-- The opposite haplotype. -/
def Hap.other : Hap → Hap
  | Hap.alt => Hap.ref
  | Hap.ref => Hap.alt

/-- The two read-name sets grouped_readsets of connect_reads. -/
structure Grouped where
  alt : Finset String
  ref : Finset String
deriving DecidableEq

/-- The two pending lists new_reads and reads_to_add of connect_reads. -/
structure PairList where
  alt : List (String × Int)
  ref : List (String × Int)
deriving DecidableEq

/-- Add a name to one haplotype set. -/
def Grouped.insertHap (g : Grouped) (h : Hap) (n : String) : Grouped :=
  match h with
  | Hap.alt => { g with alt := insert n g.alt }
  | Hap.ref => { g with ref := insert n g.ref }

/-- Append a pending entry to one haplotype list. -/
def PairList.push (nr : PairList) (h : Hap) (e : String × Int) : PairList :=
  match h with
  | Hap.alt => { nr with alt := List.append nr.alt [e] }
  | Hap.ref => { nr with ref := List.append nr.ref [e] }

/-- Index context of the grouper: read_sites, site_reads and fetched_reads.
The construction of group_reads_by_haplotype keeps every name of read_sites
and of the site_reads lists present in fetched_reads, so the unguarded
fetched_reads lookups of the Python code are modelled by skipping when
absent. The unguarded site_reads lookup is different: the alt-seed loop
keys site_reads by the stale last het site while read_sites holds the true
match sites, so the looked-up position can genuinely be missing and the
source raises KeyError there. The totalized bodies below skip in that case;
the exception-faithful variants stepNameE through connect_readsE model the
KeyError as none. -/
structure GroupCtx where
  read_sites : Dict String (List Site)
  site_reads : Dict Int (List String)
  fetched_reads : Dict String (RRead × RRead)
deriving DecidableEq

/-- Innermost loop body of connect_reads, for one read name listed at the
current site: assign it to a haplotype if it is still unassigned and its
allele matches the finder or the non-finder allele. -/
def stepName (ctx : GroupCtx) (finder nfa : String) (sitePos : Int) (hap : Hap)
    (acc : Grouped × PairList) (site_readname : String) : Grouped × PairList :=
  let g := acc.1
  let adds := acc.2
  if site_readname ∈ g.ref ∨ site_readname ∈ g.alt then acc
  else
    match dfind? ctx.fetched_reads site_readname with
    | none => acc
    | some rm =>
      match get_allele_at rm.1 (some rm.2) sitePos with
      | none => acc
      | some a =>
        if a = finder then
          (g.insertHap hap site_readname, adds.push hap (site_readname, sitePos))
        else if a = nfa then
          (g.insertHap hap.other site_readname, adds.push hap.other (site_readname, sitePos))
        else acc

/-- Middle loop body of connect_reads, for one het site of the current
read: skip the site the read was found at, resolve the finder allele and
its opposite, then walk the reads listed at the site. The getD [] totalizes
the unguarded site_reads lookup of the source, which raises KeyError when
the position is unkeyed; stepSiteE is the faithful embedding of that
lookup. -/
def stepSite (ctx : GroupCtx) (hap : Hap) (readname : String) (found_pos : Int)
    (acc : Grouped × PairList) (site : Site) : Grouped × PairList :=
  if site.pos = found_pos then acc
  else
    match dfind? ctx.fetched_reads readname with
    | none => acc
    | some rm =>
      match get_allele_at rm.1 (some rm.2) site.pos with
      | none => acc
      | some finder =>
        let nfa? : Option String :=
          if finder = site.ref_allele then some site.alt_allele
          else if finder = site.alt_allele then some site.ref_allele
          else none
        match nfa? with
        | none => acc
        | some nfa =>
          ((dfind? ctx.site_reads site.pos).getD []).foldl
            (stepName ctx finder nfa site.pos hap) acc

/-- Outer loop body of connect_reads, for one pending entry: a name absent
from read_sites is a seed that overlapped no het site. -/
def stepEntry (ctx : GroupCtx) (hap : Hap) (acc : Grouped × PairList)
    (e : String × Int) : Grouped × PairList :=
  match dfind? ctx.read_sites e.1 with
  | none => acc
  | some sites => sites.foldl (stepSite ctx hap e.1 e.2) acc

/-- One full pass of connect_reads over the pending entries of both
haplotypes, returning the grown sets and the freshly assigned entries. -/
def connect_pass (ctx : GroupCtx) (g : Grouped) (nr : PairList) : Grouped × PairList :=
  let acc := nr.alt.foldl (stepEntry ctx Hap.alt) (g, (⟨[], []⟩ : PairList))
  nr.ref.foldl (stepEntry ctx Hap.ref) acc

/-- Fuel-indexed closure of connect_reads: recurse while a pass assigned
anything. The wrapper connect_reads supplies fuel that is always
sufficient, which the development proves. -/
def connect_reads_fuel (ctx : GroupCtx) : Nat → Grouped → PairList → Grouped
  | 0, g, _ => g
  | Nat.succ n, g, nr =>
    let r := connect_pass ctx g nr
    if r.2.alt.length + r.2.ref.length > 0 then connect_reads_fuel ctx n r.1 r.2 else r.1

/-- Every read name that any site lists: the pool the closure can ever
assign from. -/
def groupUniverse (ctx : GroupCtx) : Finset String :=
  ctx.site_reads.foldl (fun s p => s ∪ p.2.toFinset) ∅

/-- Fuel that always suffices: unassigned pool size plus one. -/
def connectBound (ctx : GroupCtx) (g : Grouped) : Nat :=
  (groupUniverse ctx \ (g.alt ∪ g.ref)).card + 1

/-- Embedding of connect_reads: the transitive haplotype closure. -/
def connect_reads (ctx : GroupCtx) (g : Grouped) (nr : PairList) : Grouped :=
  connect_reads_fuel ctx (connectBound ctx g) g nr

/-- Modelled from the spec: binary_search of the site_searcher module (not
among the sources) returns the het sites whose position lies in the closed
read interval. -/
def binary_search (lo hi : Int) (sites : List Site) : List Site :=
  sites.filter (fun s => lo ≤ s.pos ∧ s.pos ≤ hi)

/-- The chromosome-name retry of the read collectors for a fetch around a
het site: strip the chr prefix characters or add the prefix. -/
def flipChromStrip (chrom : String) : String :=
  if containsSub chrom "chr" then stripChr chrom else "chr" ++ chrom

/-- Per-read body of the seeding loop of group_reads_by_haplotype, with its
enumerate index: reads past the cap are skipped, bad reads and bad or
overlapping mates are skipped, and the three indices are extended
together. -/
def group_seed_read (bam : Bam) (het_site : Site) (ctx : GroupCtx)
    (ip : Nat × RRead) : GroupCtx :=
  if ip.1 > EXTENDED_RB_READ_GOAL then ctx
  else
    let read := ip.2
    if ¬ goodread read then ctx
    else
      match dfind? bam.mates read.query_name with
      | none => ctx
      | some mate =>
        if ¬ goodread mate then ctx
        else if (mate.reference_start ≤ read.reference_start ∧
              read.reference_start ≤ mate.reference_end) ∨
            (mate.reference_start ≤ read.reference_end ∧
              read.reference_end ≤ mate.reference_end) then ctx
        else
          { read_sites := dappend ctx.read_sites read.query_name het_site,
            site_reads := dappend ctx.site_reads het_site.pos read.query_name,
            fetched_reads := dset ctx.fetched_reads read.query_name (read, mate) }

/-- Per-site body of the seeding loop of group_reads_by_haplotype: fetch
the reads over the site with the chromosome-name retry; a second failure is
the uncaught exception. -/
def group_seed_site (bam : Bam) (region : Region) (ctx : GroupCtx) (het_site : Site) :
    Option GroupCtx := do
  let it ← match bamFetch bam region.chrom het_site.pos (het_site.pos + 1) with
    | some it => some it
    | none => bamFetch bam (flipChromStrip region.chrom) het_site.pos (het_site.pos + 1)
  pure (it.enum.foldl (group_seed_read bam het_site) ctx)

/-- Per-read body of the seeding over the initial alt reads: the name joins
the alt set and the pending list before the mate lookup; on success the
matched het sites extend read_sites, while site_reads is keyed by the stale
loop variable of the previous loop, the last het site. -/
def group_seed_alt (bam : Bam) (het_sites : List Site)
    (acc : GroupCtx × Grouped × PairList) (read : RRead) : GroupCtx × Grouped × PairList :=
  let ctx := acc.1
  let g := acc.2.1
  let nr := acc.2.2
  let g := { g with alt := insert read.query_name g.alt }
  let nr := { nr with alt := List.append nr.alt [(read.query_name, -1)] }
  match dfind? bam.mates read.query_name with
  | none => (ctx, g, nr)
  | some mate =>
    let ctx := { ctx with
      fetched_reads := dset ctx.fetched_reads read.query_name (read, mate) }
    let match_sites := binary_search read.reference_start read.reference_end het_sites
    if match_sites.length ≤ 0 then (ctx, g, nr)
    else
      let hs := (het_sites.getLast?).getD ⟨0, "", ""⟩
      let ctx := match_sites.foldl (fun c ms =>
        { c with read_sites := dappend c.read_sites read.query_name ms,
                 site_reads := dappend c.site_reads hs.pos read.query_name }) ctx
      (ctx, g, nr)

/-- Deterministic listing of a name set: the source iterates a Python set,
whose order is unspecified; the model fixes the lexicographic order. -/
def hapNamesList (s : Finset String) : List String := s.sort (fun a b => a ≤ b)

/-- Output flattening of group_reads_by_haplotype: each assigned name
contributes its fetched pair; names without a fetched pair are skipped. -/
def flattenHap (ctx : GroupCtx) (names : List String) : List RRead :=
  names.flatMap (fun n =>
    match dfind? ctx.fetched_reads n with
    | none => []
    | some rm => [rm.1, rm.2])

/-- Embedding of group_reads_by_haplotype: seed the indices from the het
sites, seed the alt set from the supporting reads, run the closure and
flatten. -/
def group_reads_by_haplotype (bam : Bam) (region : Region)
    (grouped_reads : InformativeReads) (het_sites : List Site) :
    Option InformativeReads := do
  let ctx0 ← het_sites.foldlM (group_seed_site bam region) (⟨[], [], []⟩ : GroupCtx)
  let st := grouped_reads.alt.foldl (group_seed_alt bam het_sites)
    (ctx0, (⟨∅, ∅⟩ : Grouped), (⟨[], []⟩ : PairList))
  let connected := connect_reads st.1 st.2.1 st.2.2
  pure ⟨flattenHap st.1 (hapNamesList connected.alt),
        flattenHap st.1 (hapNamesList connected.ref)⟩

/-- Innermost loop body of connect_reads with the exceptions explicit: the
source reads fetched_reads[site_readname] unguarded, so a missing name is
the KeyError none. -/
def stepNameE (ctx : GroupCtx) (finder nfa : String) (sitePos : Int) (hap : Hap)
    (acc : Grouped × PairList) (site_readname : String) : Option (Grouped × PairList) :=
  let g := acc.1
  let adds := acc.2
  if site_readname ∈ g.ref ∨ site_readname ∈ g.alt then some acc
  else
    match dfind? ctx.fetched_reads site_readname with
    | none => none
    | some rm =>
      match get_allele_at rm.1 (some rm.2) sitePos with
      | none => some acc
      | some a =>
        if a = finder then
          some (g.insertHap hap site_readname, adds.push hap (site_readname, sitePos))
        else if a = nfa then
          some (g.insertHap hap.other site_readname,
            adds.push hap.other (site_readname, sitePos))
        else some acc

/-- Middle loop body of connect_reads with the exceptions explicit: both
fetched_reads[readname] and site_reads[site.pos] are read unguarded by the
source, so a missing key is the KeyError none. -/
def stepSiteE (ctx : GroupCtx) (hap : Hap) (readname : String) (found_pos : Int)
    (acc : Grouped × PairList) (site : Site) : Option (Grouped × PairList) :=
  if site.pos = found_pos then some acc
  else
    match dfind? ctx.fetched_reads readname with
    | none => none
    | some rm =>
      match get_allele_at rm.1 (some rm.2) site.pos with
      | none => some acc
      | some finder =>
        let nfa? : Option String :=
          if finder = site.ref_allele then some site.alt_allele
          else if finder = site.alt_allele then some site.ref_allele
          else none
        match nfa? with
        | none => some acc
        | some nfa =>
          match dfind? ctx.site_reads site.pos with
          | none => none
          | some names => names.foldlM (stepNameE ctx finder nfa site.pos hap) acc

/-- Outer loop body of connect_reads with the exceptions explicit: the
read_sites lookup alone is guarded by the source, so a missing name still
skips. -/
def stepEntryE (ctx : GroupCtx) (hap : Hap) (acc : Grouped × PairList)
    (e : String × Int) : Option (Grouped × PairList) :=
  match dfind? ctx.read_sites e.1 with
  | none => some acc
  | some sites => sites.foldlM (stepSiteE ctx hap e.1 e.2) acc

/-- One full pass of connect_reads with the exceptions explicit. -/
def connect_passE (ctx : GroupCtx) (g : Grouped) (nr : PairList) :
    Option (Grouped × PairList) := do
  let acc ← nr.alt.foldlM (stepEntryE ctx Hap.alt) (g, (⟨[], []⟩ : PairList))
  nr.ref.foldlM (stepEntryE ctx Hap.ref) acc

/-- Fuel-indexed closure of connect_reads with the exceptions explicit. -/
def connect_reads_fuelE (ctx : GroupCtx) : Nat → Grouped → PairList → Option Grouped
  | 0, g, _ => some g
  | Nat.succ n, g, nr => do
    let r ← connect_passE ctx g nr
    if r.2.alt.length + r.2.ref.length > 0 then connect_reads_fuelE ctx n r.1 r.2
    else some r.1

/-- Exception-faithful embedding of connect_reads: none is the uncaught
KeyError of the unguarded dictionary reads. -/
def connect_readsE (ctx : GroupCtx) (g : Grouped) (nr : PairList) : Option Grouped :=
  connect_reads_fuelE ctx (connectBound ctx g) g nr

/-- Embedding of group_reads_by_haplotype running the exception-faithful
closure: the seeding is shared with the totalized embedding, and a KeyError
raised inside connect_reads propagates as none. -/
def group_reads_by_haplotypeE (bam : Bam) (region : Region)
    (grouped_reads : InformativeReads) (het_sites : List Site) :
    Option InformativeReads := do
  let ctx0 ← het_sites.foldlM (group_seed_site bam region) (⟨[], [], []⟩ : GroupCtx)
  let st := grouped_reads.alt.foldl (group_seed_alt bam het_sites)
    (ctx0, (⟨∅, ∅⟩ : Grouped), (⟨[], []⟩ : PairList))
  let connected ← connect_readsE st.1 st.2.1 st.2.2
  pure ⟨flattenHap st.1 (hapNamesList connected.alt),
        flattenHap st.1 (hapNamesList connected.ref)⟩

/-- Per-read body of the seed loop of collect_reads_snv: keep good pairs
with few unaligned bases and sort each pair by the allele it carries at the
de novo position. -/
def collect_snv_step (bam : Bam) (position : Int) (rf al : String)
    (acc : InformativeReads) (read : RRead) : InformativeReads :=
  if ¬ goodread read then acc
  else
    match dfind? bam.mates read.query_name with
    | none => acc
    | some mate =>
      if ¬ goodread mate then acc
      else if (read.ref_positions.countP (fun x => x = none) > 5) ∨
          (mate.ref_positions.countP (fun x => x = none) > 5) then acc
      else
        match get_allele_at read (some mate) position with
        | none => acc
        | some a =>
          if a = rf then { acc with ref := List.append acc.ref [read, mate] }
          else if a = al then { acc with alt := List.append acc.alt [read, mate] }
          else acc

/-- The concordant length default of both collectors: a missing or zero
argument is falsy in Python and triggers the estimator over the read
stream. -/
def concordantLen (bam : Bam) (concordant_upper_len : Option Frac) : Frac :=
  match concordant_upper_len with
  | some c => if c = ⟨0, 1⟩ then estimate_concordant_insert_len (bam.reads.map RRead.tlen)
    else c
  | none => estimate_concordant_insert_len (bam.reads.map RRead.tlen)

/-- Fetch of collect_reads_snv around the de novo position, with the
chromosome-name retry over the narrower window starting at the position
itself. -/
def snv_fetch (bam : Bam) (region : Region) : Option (List RRead) :=
  match bamFetch bam region.chrom (region.start - 1) (region.start + 1) with
  | some it => some it
  | none => bamFetch bam (flipChromStrip region.chrom) region.start (region.start + 1)

/-- Embedding of collect_reads_snv. The retry fetch of the source uses the
narrower window starting at the position itself. -/
def collect_reads_snv (bam : Bam) (region : Region) (het_sites : List Site)
    (rf al : String) (no_extended : Bool) (concordant_upper_len : Option Frac) :
    Option InformativeReads := do
  let _clen : Frac := concordantLen bam concordant_upper_len
  let position := region.start
  let it ← snv_fetch bam region
  let informative_reads := it.foldl (collect_snv_step bam position rf al) ⟨[], []⟩
  if no_extended then pure informative_reads
  else group_reads_by_haplotype bam region informative_reads het_sites

/-- The chromosome-name retry of collect_reads_sv, which uses replace
rather than strip. -/
def flipChromReplace (chrom : String) : String :=
  if containsSub chrom "chr" then strReplace chrom "chr" "" else "chr" ++ chrom

/-- Breakpoint fetch of collect_reads_sv with the retry. -/
def sv_fetch (bam : Bam) (region : Region) (clen : Frac) (position : Int) :
    Option (List RRead) :=
  let lo : Frac :=
    if flt (fsub (Frac.ofInt position) clen) ⟨0, 1⟩ then ⟨0, 1⟩
    else fsub (Frac.ofInt position) clen
  let hi : Frac := fadd (Frac.ofInt position) clen
  match bamFetchQ bam region.chrom lo hi with
  | some it => some it
  | none => bamFetchQ bam (flipChromReplace region.chrom) lo hi

/-- Per-read body of the breakpoint loop of collect_reads_sv: keep split
reads clipped near the break, discordant pairs whose insert matches the
variant length and straddles it, and soft-clipped reads cut at the
break. -/
def collect_sv_step (region : Region) (bam : Bam) (clen : Frac) (var_len : Int)
    (position : Int) (acc : List RRead) (read : RRead) : List RRead :=
  if ¬ goodread read then acc
  else
    match dfind? bam.mates read.query_name with
    | none => acc
    | some mate =>
      let insert_size : Int := |read.tlen - READLEN * 2|
      if ¬ goodread mate then acc
      else if read.has_SA then
        if (position - SPLITTER_ERR_MARGIN ≤ read.reference_start ∧
              read.reference_start ≤ position + SPLITTER_ERR_MARGIN) ∨
            (position - SPLITTER_ERR_MARGIN ≤ read.reference_end ∧
              read.reference_end ≤ position + SPLITTER_ERR_MARGIN) then
          List.append acc [read, mate]
        else acc
      else if flt clen (Frac.ofInt insert_size) ∧
          flt ⟨7, 10⟩ (fabs (fdiv (Frac.ofInt var_len) (Frac.ofInt insert_size))) ∧
          flt (fabs (fdiv (Frac.ofInt var_len) (Frac.ofInt insert_size))) ⟨13, 10⟩ then
        let left0 := min mate.reference_start read.reference_start
        let right0 := max mate.reference_start read.reference_start
        let wig : Int := ftrunc clen
        if ¬ (region.start - wig < left0 ∧ left0 < region.start + wig ∧
            region.end_ - wig < right0 ∧ right0 < region.end_ + wig) then acc
        else List.append acc [mate, read]
      else
        let rp := read.ref_positions
        let idx? : Option Nat :=
          match List.findIdx? (fun x => x = some position) rp with
          | some i => some i
          | none =>
            match List.findIdx? (fun x => x = some (position - 1)) rp with
            | some i => some i
            | none => List.findIdx? (fun x => x = some (position + 1)) rp
        match idx? with
        | none => acc
        | some region_pos =>
          if region_pos < 2 ∨ (region_pos : Int) > (rp.length : Int) - 4 then acc
          else
            let before := rp.take (region_pos - 1)
            let after := rp.drop (region_pos + 1)
            if (before ≠ [] ∧ before.all (fun x => x = none)) ∨
                (after ≠ [] ∧ after.all (fun x => x = none)) then
              List.append acc [mate, read]
            else acc

/-- Embedding of collect_reads_sv: the two breakpoint scans, then the
grouping unless no_extended. -/
def collect_reads_sv (bam : Bam) (region : Region) (het_sites : List Site)
    (no_extended : Bool) (concordant_upper_len : Option Frac) :
    Option InformativeReads := do
  let clen : Frac := concordantLen bam concordant_upper_len
  let var_len : Int := |region.end_ - region.start|
  let supporting ← [region.start, region.end_].foldlM (fun acc position => do
    let it ← sv_fetch bam region clen position
    pure (it.foldl (collect_sv_step region bam clen var_len position) acc)) []
  let informative_reads : InformativeReads := ⟨supporting, []⟩
  if no_extended then pure informative_reads
  else group_reads_by_haplotype bam region informative_reads het_sites

/-- Claim C8 rule for DUP de novos as the claim states it, with the
inclusive minimum-depth bound, over the same exact-rational balances. -/
def dupKidAlleleClaim (rk ak rd ad rm am : Int) (kid_gt : Gt) (t : Tunables) :
    Option String :=
  if rk > 2 ∧ ak > 2 ∧ rk + ak ≥ t.minDepth ∧ kid_gt = Gt.het then
    let kid_bal : Frac := balance ak rk
    let dad_bal : Frac := balance ad rd
    let mom_bal : Frac := balance am rm
    if (flt (fadd dad_bal mom_bal) (Frac.ofInt 1) ∧ flt ⟨1, 2⟩ kid_bal) ∨
        (flt (Frac.ofInt 1) (fadd dad_bal mom_bal) ∧ flt kid_bal ⟨1, 2⟩) then none
    else if fle ⟨67, 100⟩ kid_bal then some "alt_parent"
    else if fle kid_bal ⟨33, 100⟩ then some "ref_parent"
    else none
  else none

/-- Amended C8 rule: identical to the claim rule except for the strict
minimum-depth bound that the code uses. -/
def dupKidAlleleStrict (rk ak rd ad rm am : Int) (kid_gt : Gt) (t : Tunables) :
    Option String :=
  if rk > 2 ∧ ak > 2 ∧ rk + ak > t.minDepth ∧ kid_gt = Gt.het then
    let kid_bal : Frac := balance ak rk
    let dad_bal : Frac := balance ad rd
    let mom_bal : Frac := balance am rm
    if (flt (fadd dad_bal mom_bal) (Frac.ofInt 1) ∧ flt ⟨1, 2⟩ kid_bal) ∨
        (flt (Frac.ofInt 1) (fadd dad_bal mom_bal) ∧ flt kid_bal ⟨1, 2⟩) then none
    else if fle ⟨67, 100⟩ kid_bal then some "alt_parent"
    else if fle kid_bal ⟨33, 100⟩ then some "ref_parent"
    else none
  else none

/-- Seed selection of collect_reads_snv phrased per read pair, as the
amended claim C5 reads: the fetched reads that pass goodread with their
mates, have few unaligned bases, and carry the given allele at the
position contribute the pair. -/
def snv_seed_pairs (bam : Bam) (position : Int) (allele : String)
    (reads : List RRead) : List RRead :=
  (reads.filterMap (fun read =>
    if goodread read then
      match dfind? bam.mates read.query_name with
      | some mate =>
        if goodread mate ∧
            ¬ ((read.ref_positions.countP (fun x => x = none) > 5) ∨
              (mate.ref_positions.countP (fun x => x = none) > 5)) ∧
            get_allele_at read (some mate) position = some allele then
          some [read, mate]
        else none
      | none => none
    else none)).flatten

/-- Annotation sizes of one bucket of vars_by_sample: candidate and het
list lengths per stored de novo. -/
def annotSizes (vbs : VBS) (kid chrom : String) (pos : Int) : List (Nat × Nat) :=
  ((dfind3? vbs kid chrom pos).getD []).map
    (fun d => ((d.candidate_sites.getD []).length, (d.het_sites.getD []).length))

/-- Fixture pedigree: one trio, male kid. -/
def ped1 : Pedigrees := fun _ => ⟨"d", "m", 1⟩

/-- Fixture tunables. -/
def t1 : Tunables := ⟨⟨0, 1⟩, ⟨1, 5⟩, ⟨3, 10⟩, ⟨7, 10⟩, ⟨4, 5⟩, ⟨1, 1⟩, ⟨20, 1⟩, 10⟩

/-- Fixture variant on chromosome X: kid het, dad het, mom homozygous
reference, all high quality. -/
def vX : Variant :=
  ⟨"X", 108, "A", ["T"], [Gt.het, Gt.het, Gt.homRef], [10, 10, 20], [10, 10, 0],
    [⟨50, 1⟩, ⟨50, 1⟩, ⟨50, 1⟩]⟩

/-- Fixture callset with bare chromosome names. -/
def vcf1 : Vcf := ⟨["k", "d", "m"], [vX], ""⟩

/-- Fixture de novo of a male kid on chromosome X, short enough to add no
end key. -/
def dnm1 : Denovo := ⟨"X", 100, 101, "k", none, none, none⟩

/-- The candidate site the X variant yields when it is not excluded. -/
def candX : Candidate := ⟨108, "A", "T", none, "d", "m"⟩

/-- The het site the X variant yields when it is not excluded. -/
def hetX : Site := ⟨108, "A", "T"⟩

/-- Fixture variant as vX but on a chr-prefixed callset. -/
def vChrX : Variant :=
  ⟨"chrX", 108, "A", ["T"], [Gt.het, Gt.het, Gt.homRef], [10, 10, 20], [10, 10, 0],
    [⟨50, 1⟩, ⟨50, 1⟩, ⟨50, 1⟩]⟩

/-- Fixture callset with chr-prefixed chromosome names. -/
def vcfChr : Vcf := ⟨["k", "d", "m"], [vChrX], "chr"⟩

/-- Fixture deletion spanning more than two bases: create_lookups records
its end position as a location key. -/
def dnmE : Denovo := ⟨"1", 100, 200, "k", some "DEL", none, none⟩

/-- Fixture variant on chromosome 1 inside the span of dnmE. -/
def v3 : Variant :=
  ⟨"1", 149, "A", ["T"], [Gt.het, Gt.het, Gt.homRef], [10, 10, 20], [10, 10, 0],
    [⟨50, 1⟩, ⟨50, 1⟩, ⟨50, 1⟩]⟩

/-- Fixture callset for the end-key crash. -/
def vcf3 : Vcf := ⟨["k", "d", "m"], [v3], ""⟩

/-- Fixture de novo pair sharing kid, chromosome and start. -/
def d2a : Denovo := ⟨"1", 100, 101, "k", none, none, none⟩

/-- Second fixture de novo at the same start. -/
def d2b : Denovo := ⟨"1", 100, 102, "k", none, none, none⟩

/-- Fixture variant near the shared start. -/
def v2 : Variant :=
  ⟨"1", 108, "A", ["T"], [Gt.het, Gt.het, Gt.homRef], [10, 10, 20], [10, 10, 0],
    [⟨50, 1⟩, ⟨50, 1⟩, ⟨50, 1⟩]⟩

/-- Fixture callset for the duplicate-reporting run. -/
def vcf2 : Vcf := ⟨["k", "d", "m"], [v2], ""⟩

/-- Fixture template lengths for the insert estimator: insert sizes 0, 0
and 1000. -/
def tlens9 : List Int := [302, 302, 1302]

/-- Fixture DUP de novo for the kid-allele boundary. -/
def dnmDup : Denovo := ⟨"1", 1000, 50000, "k", some "DUP", none, none⟩

/-- Fixture read covering position 500 with base A. -/
def rSnv : RRead :=
  ⟨"r1", "1", 490, 511, (List.range 21).map (fun i => some (490 + (i : Int))),
    List.replicate 21 "A", false, false, false, false, false, false, 60, true, 300, false⟩

/-- Fixture mate of rSnv, far to the right. -/
def mSnv : RRead :=
  ⟨"r1", "1", 700, 721, (List.range 21).map (fun i => some (700 + (i : Int))),
    List.replicate 21 "C", false, false, false, false, false, false, 60, true, -300, false⟩

/-- Fixture alignment source with the single proper pair. -/
def bam5 : Bam := ⟨["1"], [rSnv], [("r1", mSnv)]⟩

/-- Fixture de novo region at position 500. -/
def region5 : Region := ⟨"1", 500, 501⟩

/-- Fixture grouper reads: seed read a carries A at site 10, read b carries
T there. -/
def rA : RRead :=
  ⟨"a", "1", 10, 11, [some 10], ["A"], false, false, false, false, false, false, 60,
    true, 300, false⟩

/-- Fixture mate of rA. -/
def rAm : RRead :=
  ⟨"a", "1", 200, 201, [some 200], ["G"], false, false, false, false, false, false, 60,
    true, -300, false⟩

/-- Fixture read of the other haplotype. -/
def rB : RRead :=
  ⟨"b", "1", 10, 11, [some 10], ["T"], false, false, false, false, false, false, 60,
    true, 300, false⟩

/-- Fixture mate of rB. -/
def rBm : RRead :=
  ⟨"b", "1", 300, 301, [some 300], ["G"], false, false, false, false, false, false, 60,
    true, -300, false⟩

/-- Fixture het site at position 10. -/
def site10 : Site := ⟨10, "A", "T"⟩

/-- Fixture grouper context: seed a spans site 10 where b is listed. -/
def ctx6 : GroupCtx :=
  ⟨[("a", [site10])], [(10, ["b"])], [("a", (rA, rAm)), ("b", (rB, rBm))]⟩

/-- Fixture het site the seed read spans, carrying its allele. -/
def siteA7 : Site := ⟨50, "A", "T"⟩

/-- Fixture last het site, the stale loop variable of the alt-seed loop. -/
def siteB7 : Site := ⟨400, "C", "G"⟩

/-- Fixture seed read spanning site 50 with the ref allele. -/
def rS : RRead :=
  ⟨"s", "1", 40, 60, [some 50], ["A"], false, false, false, false, false, false, 60,
    true, 300, false⟩

/-- Fixture mate whose interval overlaps the read, so the het-site loop of
the grouper rejects the pair at its overlap filter and never keys site 50
in site_reads. -/
def rSm : RRead :=
  ⟨"s", "1", 45, 65, [some 55], ["C"], false, false, false, false, false, false, 60,
    true, -300, false⟩

/-- Fixture alignment source of the KeyError run. -/
def bam7 : Bam := ⟨["1"], [rS], [("s", rSm)]⟩

/-- Fixture region of the KeyError run. -/
def region7 : Region := ⟨"1", 100, 101⟩

/-- The grouper state the fixture seeding produces: read_sites holds the
true match site at 50, site_reads only the stale key 400. -/
def st7 : GroupCtx × Grouped × PairList :=
  (⟨[("s", [siteA7])], [(400, ["s"])], [("s", (rS, rSm))]⟩,
   ⟨{"s"}, ∅⟩, ⟨[("s", -1)], []⟩)

/-- C1: the claimed agreement between the batched path and the per-DNM path
fails on the code. For a male kid with a de novo on chromosome X the
per-DNM loop of find excludes the X variant, but add_good_candidate_variant
carries no male-X exclusion, so the same run through find_many hands the
de novo one candidate site and one het site where find hands it none. -/
theorem find_many_misses_male_X_exclusion :
    (findOne ped1 vcf1 10 "na" t1 true dnm1).candidate_sites = some [] ∧
    (findOne ped1 vcf1 10 "na" t1 true dnm1).het_sites = some [] ∧
    find_many [dnm1] ped1 vcf1 10 "na" t1 true =
      some [{ dnm1 with candidate_sites := some [candX], het_sites := some [hetX] }] := by
  decide

/-- C3: the whole-region proximity query is not total. A de novo spanning
more than two bases records its end position in samples_by_location, and
get_close_vars then dereferences vars_by_sample at that end position, which
only holds start keys: the modelled KeyError (none) reaches the whole
batch run. -/
theorem get_close_vars_end_key_crash :
    get_close_vars "1" 150 (create_lookups [dnmE] ped1 "na").sbl
      (create_lookups [dnmE] ped1 "na").vbs 10 true = none ∧
    find_many [dnmE] ped1 vcf3 10 "na" t1 true = none := by
  decide

/-- C4: the male-X exclusion compares the callset chromosome name with the
literal X, so on a chr-prefixed callset even the per-DNM path accepts an X
variant as a candidate site for a male kid. -/
theorem male_X_candidate_slips_through :
    (ped1 dnm1.kid).sex = 1 ∧
    (findOne ped1 vcfChr 10 "na" t1 true dnm1).candidate_sites = some [candX] ∧
    (findOne ped1 vcfChr 10 "na" t1 true dnm1).het_sites = some [hetX] := by
  decide

/-- C9: the estimator does not truncate the distribution. Rebinding
insert_sizes to the percentile scalar makes the mean the scalar itself and
the standard deviation zero, so the code returns the truncated percentile;
on sizes 0, 0, 1000 it returns 990 while the announced mean plus three
standard deviations of the truncated distribution is 0. The loop also
examines 1000001 alignments, one more than the claimed bound. -/
theorem estimator_collapses_to_percentile :
    estimate_concordant_insert_len tlens9 = ⟨990, 1⟩ ∧
    specTruncatedSizes tlens9 = [0, 0] ∧
    feq (listMean (specTruncatedSizes tlens9)) ⟨0, 1⟩ = true ∧
    feq (listVariance (specTruncatedSizes tlens9)) ⟨0, 1⟩ = true ∧
    feq (estimate_concordant_insert_len tlens9) ⟨0, 1⟩ = false ∧
    (insert_sizes_of (List.replicate (MILLION + 2) 0)).length = MILLION + 1 := by
  refine ⟨by decide, by decide, by decide, by decide, by decide, ?_⟩
  simp [insert_sizes_of]

/-- C10: the dispatch of find returns the bare None for an empty input list
whenever the batch threshold is positive, and the annotated input list for
every nonempty input below the threshold. -/
theorem find_empty_returns_none (ped : Pedigrees) (vcf : Vcf) (S : Int) (build : String)
    (mpm : Int) (t : Tunables) (wr : Bool) (dnms : List Denovo)
    (hm : 0 < mpm) (hne : dnms ≠ []) (hlt : (dnms.length : Int) < mpm) :
    find [] ped vcf S build mpm t wr = some none ∧
    find dnms ped vcf S build mpm t wr =
      some (some (dnms.map (findOne ped vcf S build t wr))) := by
  constructor
  · unfold find
    have h0 : ¬ (((List.length ([] : List Denovo)) : Int) ≥ mpm) := by
      simp only [List.length_nil, Int.natCast_zero]
      omega
    simp [h0]
    omega
  · unfold find
    have h1 : ¬ ((dnms.length : Int) ≥ mpm) := by omega
    have h2 : ¬ (dnms.length ≤ 0) := by
      cases dnms with
      | nil => exact absurd rfl hne
      | cons a l => simp
    simp [h1, h2]

/-- Witness for C10 at a concrete empty and one-element input. -/
theorem find_empty_returns_none_witness :
    find [] ped1 vcf1 10 "na" 5 t1 true = some none ∧
    find [dnm1] ped1 vcf1 10 "na" 5 t1 true =
      some (some ([dnm1].map (findOne ped1 vcf1 10 "na" t1 true))) :=
  find_empty_returns_none ped1 vcf1 10 "na" 5 t1 true [dnm1]
    (by decide) (by decide) (by decide)

/-- C8 counterexample: at kid depths 3 and 7 with min_depth 10 the claimed
inclusive bound proceeds and yields alt_parent, but the code requires a
strictly larger total and rejects. -/
theorem dup_inclusive_depth_refuted :
    get_kid_allele dnmDup [Gt.het, Gt.het, Gt.het] [3, 10, 10] [7, 10, 10] 0 1 2 t1 = none ∧
    dupKidAlleleClaim 3 7 10 10 10 10 Gt.het t1 = some "alt_parent" := by
  decide

/-- C8 amended: for DUP de novos the kid-allele inference of the code is
exactly the claimed rule with a strict minimum-depth bound; the balance
boundaries 0.67 and 0.33 stay inclusive as claimed. -/
theorem get_kid_allele_dup_strict_depth (d : Denovo) (gts : List Gt) (rd ad : List Int)
    (ki di mi : Nat) (t : Tunables) (hdup : d.vartype = some "DUP") :
    get_kid_allele d gts rd ad ki di mi t =
      dupKidAlleleStrict (intAt rd ki) (intAt ad ki) (intAt rd di) (intAt ad di)
        (intAt rd mi) (intAt ad mi) (gtAt gts ki) t := by
  unfold get_kid_allele dupKidAlleleStrict
  rw [hdup]
  simp only [Option.some.injEq, reduceCtorEq]
  by_cases hA : 2 < intAt rd ki <;> by_cases hB : 2 < intAt ad ki <;>
    by_cases hC : t.minDepth < intAt rd ki + intAt ad ki <;>
    by_cases hD : gtAt gts ki = Gt.het <;>
    simp [hA, hB, hC, hD]

/-- Witness for the amended C8 rule at a passing concrete input. -/
theorem get_kid_allele_dup_strict_depth_witness :
    get_kid_allele dnmDup [Gt.het, Gt.het, Gt.het] [3, 10, 10] [8, 10, 10] 0 1 2 t1 =
      dupKidAlleleStrict (intAt [3, 10, 10] 0) (intAt [8, 10, 10] 0)
        (intAt [3, 10, 10] 1) (intAt [8, 10, 10] 1) (intAt [3, 10, 10] 2)
        (intAt [8, 10, 10] 2) (gtAt [Gt.het, Gt.het, Gt.het] 0) t1 :=
  get_kid_allele_dup_strict_depth dnmDup [Gt.het, Gt.het, Gt.het] [3, 10, 10]
    [8, 10, 10] 0 1 2 t1 (by decide)

/-- C2 counterexample: with two de novos of the same kid sharing chromosome
and start, samples_by_location lists the kid twice at the shared start and
each listed sample walks the whole two-element bucket, so the batch run
reports the single variant at position 108 four times to each de novo. -/
theorem batch_duplicate_candidates :
    (find_many [d2a, d2b] ped1 vcf2 10 "na" t1 true).map
      (fun l => l.map (fun d => d.candidate_sites.map (fun cs => cs.map Candidate.pos))) =
      some [some [108, 108, 108, 108], some [108, 108, 108, 108]] := by
  decide

/-- C5 counterexample: with no_extended the claim promises an empty ref
list, but the seed loop of collect_reads_snv files the reference-allele
pair under ref. -/
theorem snv_no_extended_ref_not_empty :
    collect_reads_snv bam5 region5 [] "A" "T" true (some ⟨300, 1⟩) =
      some ⟨[], [rSnv, mSnv]⟩ := by
  decide

/-- The seed loop of collect_reads_snv appends exactly the alt-allele seed
pairs to alt and the ref-allele seed pairs to ref, in fetch order. -/
theorem collect_snv_fold (bam : Bam) (position : Int) (rf al : String) (hne : rf ≠ al)
    (reads : List RRead) (acc : InformativeReads) :
    reads.foldl (collect_snv_step bam position rf al) acc =
      ⟨List.append acc.alt (snv_seed_pairs bam position al reads),
       List.append acc.ref (snv_seed_pairs bam position rf reads)⟩ := by
  induction reads generalizing acc with
  | nil => simp [snv_seed_pairs]
  | cons r rest ih =>
    simp only [List.foldl_cons]
    rw [ih]
    simp only [snv_seed_pairs, List.filterMap_cons]
    by_cases hg : goodread r
    · cases hm : dfind? bam.mates r.query_name with
      | none => simp [collect_snv_step, hg, hm, snv_seed_pairs]
      | some mate =>
        by_cases hgm : goodread mate
        · by_cases hcnt : (r.ref_positions.countP (fun x => x = none) > 5) ∨
              (mate.ref_positions.countP (fun x => x = none) > 5)
          · simp [collect_snv_step, hg, hm, hgm, hcnt, snv_seed_pairs]
          · cases ha : get_allele_at r (some mate) position with
            | none =>
              simp [collect_snv_step, hg, hm, hgm, hcnt, ha, snv_seed_pairs]
            | some a =>
              by_cases har : a = rf
              · have hnal : a ≠ al := har ▸ hne
                simp [collect_snv_step, hg, hm, hgm, hcnt, ha, har, hnal, hne,
                  snv_seed_pairs, List.append_assoc]
              · by_cases haa : a = al
                · have hne2 : al ≠ rf := fun hh => hne hh.symm
                  simp [collect_snv_step, hg, hm, hgm, hcnt, ha, har, haa, hne, hne2,
                    snv_seed_pairs, List.append_assoc]
                · simp [collect_snv_step, hg, hm, hgm, hcnt, ha, har, haa,
                    snv_seed_pairs]
        · simp [collect_snv_step, hg, hm, hgm, snv_seed_pairs]
    · simp [collect_snv_step, hg, snv_seed_pairs]

/-- C5 amended: with no_extended the SNV collector returns exactly the seed
alt-allele pairs under alt and the seed ref-allele pairs under ref, and the
SV collector returns its supporting seed reads under alt with an empty ref;
no haplotype grouping runs in either. -/
theorem no_extended_returns_seed_reads (bam : Bam) (region : Region) (hets : List Site)
    (rf al : String) (clen : Option Frac) (hne : rf ≠ al) :
    (∀ res, collect_reads_snv bam region hets rf al true clen = some res →
      res.alt = snv_seed_pairs bam region.start al ((snv_fetch bam region).getD []) ∧
      res.ref = snv_seed_pairs bam region.start rf ((snv_fetch bam region).getD [])) ∧
    (∀ res, collect_reads_sv bam region hets true clen = some res → res.ref = []) := by
  constructor
  · intro res h
    cases hfetch : snv_fetch bam region with
    | none => simp [collect_reads_snv, hfetch] at h
    | some it =>
      simp only [collect_reads_snv, hfetch, Option.bind_eq_bind, Option.some_bind,
        if_true, Option.getD_some] at h ⊢
      rw [collect_snv_fold bam region.start rf al hne it ⟨[], []⟩] at h
      cases h
      simp
  · intro res h
    simp only [collect_reads_sv, Option.bind_eq_bind] at h
    rcases Option.bind_eq_some.mp h with ⟨l, hl, hres⟩
    simp only [if_true, pure, Option.some.injEq] at hres
    cases hres
    rfl

/-- Witness for the amended C5 statement at the concrete single-pair
alignment source. -/
theorem no_extended_returns_seed_reads_witness :
    (⟨[], [rSnv, mSnv]⟩ : InformativeReads).alt =
      snv_seed_pairs bam5 region5.start "T" ((snv_fetch bam5 region5).getD []) ∧
    (⟨[], [rSnv, mSnv]⟩ : InformativeReads).ref =
      snv_seed_pairs bam5 region5.start "A" ((snv_fetch bam5 region5).getD []) :=
  (no_extended_returns_seed_reads bam5 region5 [] "A" "T" (some ⟨300, 1⟩)
    (by decide)).1 ⟨[], [rSnv, mSnv]⟩ (by decide)

/-- A successful lookup exposes a member pair of the dictionary. -/
theorem dfind?_mem {α β : Type} [DecidableEq α] {d : Dict α β} {k : α} {v : β}
    (h : dfind? d k = some v) : (k, v) ∈ d := by
  unfold dfind? at h
  cases hf : List.find? (fun p => p.1 = k) d with
  | none => rw [hf] at h; exact absurd h (by simp)
  | some p =>
    rw [hf] at h
    simp only [Option.map_some', Option.some.injEq] at h
    have hp := List.find?_some hf
    simp only [decide_eq_true_eq] at hp
    have hm := List.mem_of_find?_eq_some hf
    have : p = (k, v) := by
      cases p
      simp_all
    exact this ▸ hm

/-- Unfolding of the lookup on a cons cell. -/
theorem dfind?_cons {α β : Type} [DecidableEq α] (p : α × β) (rest : Dict α β) (k : α) :
    dfind? (p :: rest) k = if p.1 = k then some p.2 else dfind? rest k := by
  unfold dfind?
  by_cases h : p.1 = k
  · rw [List.find?_cons_of_pos _ (by simpa using h), if_pos h]
    rfl
  · rw [List.find?_cons_of_neg _ (by simpa using h), if_neg h]

/-- Modifying one key leaves every other key unchanged. -/
theorem dfind?_dmodify_ne {α β : Type} [DecidableEq α] (d : Dict α β) (k k2 : α)
    (f : β → β) (h : k2 ≠ k) : dfind? (dmodify d k f) k2 = dfind? d k2 := by
  induction d with
  | nil => rfl
  | cons p rest ih =>
    show dfind? ((if p.1 = k then (p.1, f p.2) else p) :: dmodify rest k f) k2 =
      dfind? (p :: rest) k2
    by_cases hp : p.1 = k
    · have hne : ¬ p.1 = k2 := by rw [hp]; exact fun hh => h hh.symm
      rw [if_pos hp]
      simp only [dfind?_cons, hne, if_neg, if_false]
      simpa [hne] using ih
    · rw [if_neg hp]
      simp only [dfind?_cons]
      by_cases hp2 : p.1 = k2
      · rw [if_pos hp2, if_pos hp2]
      · rw [if_neg hp2, if_neg hp2]
        exact ih

/-- Modifying one key maps its stored value. -/
theorem dfind?_dmodify_self {α β : Type} [DecidableEq α] (d : Dict α β) (k : α)
    (f : β → β) : dfind? (dmodify d k f) k = (dfind? d k).map f := by
  induction d with
  | nil => rfl
  | cons p rest ih =>
    show dfind? ((if p.1 = k then (p.1, f p.2) else p) :: dmodify rest k f) k =
      (dfind? (p :: rest) k).map f
    by_cases hp : p.1 = k
    · rw [if_pos hp]
      simp [dfind?_cons, hp]
    · rw [if_neg hp]
      simp only [dfind?_cons, hp, if_false]
      simpa [hp] using ih

/-- Lookup through vbsModify at the modified key maps the bucket. -/
theorem dfind3?_vbsModify_self (vbs : VBS) (kid chrom : String) (pos : Int)
    (f : List Denovo → List Denovo) :
    dfind3? (vbsModify vbs kid chrom pos f) kid chrom pos =
      (dfind3? vbs kid chrom pos).map f := by
  unfold dfind3? vbsModify
  rw [dfind?_dmodify_self]
  cases h1 : dfind? vbs kid with
  | none => rfl
  | some cd =>
    simp only [Option.map_some', Option.some_bind]
    rw [dfind?_dmodify_self]
    cases h2 : dfind? cd chrom with
    | none => rfl
    | some pd =>
      simp only [Option.map_some', Option.some_bind]
      rw [dfind?_dmodify_self]

/-- Lookup through vbsModify at any other key is unchanged. -/
theorem dfind3?_vbsModify_ne (vbs : VBS) (kid chrom : String) (pos : Int)
    (f : List Denovo → List Denovo) (kid2 chrom2 : String) (pos2 : Int)
    (h : ¬ (kid2 = kid ∧ chrom2 = chrom ∧ pos2 = pos)) :
    dfind3? (vbsModify vbs kid chrom pos f) kid2 chrom2 pos2 =
      dfind3? vbs kid2 chrom2 pos2 := by
  unfold dfind3? vbsModify
  by_cases h1 : kid2 = kid
  · subst h1
    rw [dfind?_dmodify_self]
    cases hk : dfind? vbs kid2 with
    | none => rfl
    | some cd =>
      simp only [Option.map_some', Option.some_bind]
      by_cases h2 : chrom2 = chrom
      · subst h2
        rw [dfind?_dmodify_self]
        cases hc : dfind? cd chrom2 with
        | none => rfl
        | some pd =>
          simp only [Option.map_some', Option.some_bind]
          have h3 : pos2 ≠ pos := fun hp => h ⟨rfl, rfl, hp⟩
          rw [dfind?_dmodify_ne _ _ _ _ h3]
      · rw [dfind?_dmodify_ne _ _ _ _ h2]
  · rw [dfind?_dmodify_ne _ _ _ _ h1]

/-- Each de novo in the bucket gains at most one candidate entry and at most
one het entry from one variant. -/
theorem processDenovoVariant_growth (variant : Variant) (ped : Pedigrees) (wr : Bool)
    (ki di mi : Nat) (t : Tunables) (build : String) (kid : String) (d : Denovo) :
    ((processDenovoVariant variant ped wr ki di mi t build kid d).candidate_sites.getD
        []).length ≤ (d.candidate_sites.getD []).length + 1 ∧
    ((processDenovoVariant variant ped wr ki di mi t build kid d).het_sites.getD
        []).length ≤ (d.het_sites.getD []).length + 1 := by
  unfold processDenovoVariant
  by_cases h1 : autophaseable d ped build
  · simp [h1]
  · by_cases h2 : smallEventHit d variant
    · simp [h1, h2]
    · cases hc : hetCapture? t ki di mi variant with
      | none =>
        cases hf : findCandidate ped t wr kid d ki di mi variant with
        | none => simp [h1, h2, hc, hf]
        | some cand => simp [h1, h2, hc, hf]
      | some site =>
        cases hf : findCandidate ped t wr kid d ki di mi variant with
        | none => simp [h1, h2, hc, hf]
        | some cand => simp [h1, h2, hc, hf]

/-- Lookup after add_good_candidate_variant at any other key is unchanged. -/
theorem add_good_ne (v : Variant) (vbs : VBS) (k : CKey) (ped : Pedigrees) (wr : Bool)
    (samples : List String) (build : String) (t : Tunables) (q : CKey) (h : q ≠ k) :
    dfind3? (add_good_candidate_variant v vbs k ped wr samples build t) q.1 q.2.1 q.2.2 =
      dfind3? vbs q.1 q.2.1 q.2.2 := by
  unfold add_good_candidate_variant
  cases hf : get_family_indexes k.1 ped samples with
  | none => simp [hf]
  | some tri =>
    obtain ⟨ki, di, mi⟩ := tri
    cases hb : dfind3? vbs k.1 k.2.1 k.2.2 with
    | none => simp [hf, hb]
    | some bucket =>
      simp only [hf, hb]
      exact dfind3?_vbsModify_ne vbs k.1 k.2.1 k.2.2 _ q.1 q.2.1 q.2.2 (by
        intro hc
        obtain ⟨ha, hb2, hc2⟩ := hc
        apply h
        obtain ⟨qa, qb, qc⟩ := q
        obtain ⟨ka, kb, kc⟩ := k
        simp_all)

/-- Reflexive instance of the growth bound. -/
theorem sizes_growth_refl (l : List (Nat × Nat)) :
    List.Forall₂ (fun a b => a.1 ≤ b.1 + 1 ∧ a.2 ≤ b.2 + 1) l l :=
  List.forall₂_same.mpr (fun _ _ => ⟨Nat.le_succ _, Nat.le_succ _⟩)

/-- The bucket addressed by add_good_candidate_variant grows by at most one
entry per stored de novo on each list. -/
theorem add_good_self_growth (v : Variant) (vbs : VBS) (k : CKey) (ped : Pedigrees)
    (wr : Bool) (samples : List String) (build : String) (t : Tunables) :
    List.Forall₂ (fun a b => a.1 ≤ b.1 + 1 ∧ a.2 ≤ b.2 + 1)
      (annotSizes (add_good_candidate_variant v vbs k ped wr samples build t)
        k.1 k.2.1 k.2.2)
      (annotSizes vbs k.1 k.2.1 k.2.2) := by
  unfold add_good_candidate_variant
  cases hf : get_family_indexes k.1 ped samples with
  | none => simp [hf, sizes_growth_refl]
  | some tri =>
    obtain ⟨ki, di, mi⟩ := tri
    cases hb : dfind3? vbs k.1 k.2.1 k.2.2 with
    | none => simp [hf, hb, sizes_growth_refl]
    | some bucket =>
      simp only [hf, hb]
      unfold annotSizes
      rw [dfind3?_vbsModify_self, hb]
      simp only [Option.map_some', Option.getD_some, List.map_map]
      rw [List.forall₂_map_left_iff, List.forall₂_map_right_iff]
      refine List.forall₂_same.mpr (fun d _ => ?_)
      exact processDenovoVariant_growth v ped wr ki di mi t build k.1 d

/-- A fold of add_good_candidate_variant over keys that avoid a query key
leaves the queried bucket unchanged. -/
theorem add_good_fold_not_mem (v : Variant) (ped : Pedigrees) (wr : Bool)
    (samples : List String) (build : String) (t : Tunables) (keys : List CKey)
    (vbs : VBS) (q : CKey) (hq : q ∉ keys) :
    dfind3? (keys.foldl (fun vb k =>
        add_good_candidate_variant v vb k ped wr samples build t) vbs) q.1 q.2.1 q.2.2 =
      dfind3? vbs q.1 q.2.1 q.2.2 := by
  induction keys generalizing vbs with
  | nil => rfl
  | cons k ks ih =>
    simp only [List.foldl_cons]
    have hqk : q ≠ k := fun hh => hq (hh ▸ List.mem_cons_self k ks)
    have hqs : q ∉ ks := fun hh => hq (List.mem_cons_of_mem k hh)
    rw [ih _ hqs]
    exact add_good_ne v vbs k ped wr samples build t q hqk

/-- A fold of add_good_candidate_variant over duplicate-free keys grows
every bucket by at most one entry per stored de novo. -/
theorem add_good_fold_nodup (v : Variant) (ped : Pedigrees) (wr : Bool)
    (samples : List String) (build : String) (t : Tunables) (keys : List CKey)
    (hnd : keys.Nodup) (vbs : VBS) (q : CKey) :
    List.Forall₂ (fun a b => a.1 ≤ b.1 + 1 ∧ a.2 ≤ b.2 + 1)
      (annotSizes (keys.foldl (fun vb k =>
        add_good_candidate_variant v vb k ped wr samples build t) vbs) q.1 q.2.1 q.2.2)
      (annotSizes vbs q.1 q.2.1 q.2.2) := by
  induction keys generalizing vbs with
  | nil => exact sizes_growth_refl _
  | cons k ks ih =>
    simp only [List.foldl_cons]
    rcases List.nodup_cons.mp hnd with ⟨hk, hks⟩
    by_cases hq : q = k
    · subst hq
      have := add_good_fold_not_mem v ped wr samples build t ks
        (add_good_candidate_variant v vbs q ped wr samples build t) q hk
      unfold annotSizes
      rw [this]
      exact add_good_self_growth v vbs q ped wr samples build t
    · have hne := add_good_ne v vbs k ped wr samples build t q hq
      have := ih hks (add_good_candidate_variant v vbs k ped wr samples build t)
      unfold annotSizes at this ⊢
      rwa [hne] at this

/-- Buckets reached by the triple lookup satisfy the structural bucket
hypotheses: aligned starts and at most one entry. -/
theorem dfind3?_props (vbs : VBS) (s chrom : String) (loc : Int) (ds : List Denovo)
    (hB : ∀ sp ∈ vbs, ∀ cp ∈ sp.2, ∀ pp ∈ cp.2, ∀ d ∈ pp.2, Denovo.start d = pp.1)
    (hC : ∀ sp ∈ vbs, ∀ cp ∈ sp.2, ∀ pp ∈ cp.2, List.length pp.2 ≤ 1)
    (h : dfind3? vbs s chrom loc = some ds) :
    (∀ d ∈ ds, d.start = loc) ∧ ds.length ≤ 1 := by
  unfold dfind3? at h
  rcases Option.bind_eq_some.mp h with ⟨cd, h1, h2⟩
  rcases Option.bind_eq_some.mp h2 with ⟨pd, h3, h4⟩
  have m1 := dfind?_mem h1
  have m2 := dfind?_mem h3
  have m3 := dfind?_mem h4
  exact ⟨fun d hd => hB _ m1 _ m2 _ m3 d hd, hC _ m1 _ m2 _ m3⟩

/-- A list of length at most one has no duplicates. -/
theorem nodup_of_length_le_one {α : Type} {l : List α} (h : l.length ≤ 1) : l.Nodup := by
  cases l with
  | nil => exact List.nodup_nil
  | cons a rest =>
    cases rest with
    | nil => simp
    | cons b r2 => simp at h

/-- The per-location whole-region scan yields duplicate-free keys whose
samples come from the listed samples and whose position is the location. -/
theorem close_vars_at_loc_spec (pos S : Int) (chrom : String) (vbs : VBS) (loc : Int)
    (samples : List String) (ks : List CKey)
    (hnd : samples.Nodup)
    (hB : ∀ sp ∈ vbs, ∀ cp ∈ sp.2, ∀ pp ∈ cp.2, ∀ d ∈ pp.2, Denovo.start d = pp.1)
    (hC : ∀ sp ∈ vbs, ∀ cp ∈ sp.2, ∀ pp ∈ cp.2, List.length pp.2 ≤ 1)
    (h : close_vars_at_loc pos S chrom vbs loc samples = some ks) :
    ks.Nodup ∧ ∀ x ∈ ks, x.2.2 = loc ∧ x.1 ∈ samples := by
  unfold close_vars_at_loc at h
  rcases Option.map_eq_some'.mp h with ⟨lss, hmm, hflat⟩
  subst hflat
  clear h
  induction samples generalizing lss with
  | nil =>
    simp only [List.mapM_nil, pure, Option.some.injEq] at hmm
    subst hmm
    simp
  | cons s rest ih =>
    rw [List.mapM_cons] at hmm
    rcases Option.bind_eq_some.mp hmm with ⟨ls, hls, hrest⟩
    rcases Option.bind_eq_some.mp hrest with ⟨lss2, hlss2, hpure⟩
    simp only [pure, Option.some.injEq] at hpure
    subst hpure
    rcases List.nodup_cons.mp hnd with ⟨hsr, hndr⟩
    have hhead : ∀ x ∈ ls, x.1 = s ∧ x.2.2 = loc ∧ ls.length ≤ 1 := by
      cases hb : dfind3? vbs s chrom loc with
      | none => rw [hb] at hls; exact absurd hls (by simp)
      | some ds =>
        rw [hb] at hls
        simp only [Option.some.injEq] at hls
        subst hls
        intro x hx
        rcases List.mem_filterMap.mp hx with ⟨d, hd, hdx⟩
        have hprops := dfind3?_props vbs s chrom loc ds hB hC hb
        by_cases hr : d.start - S ≤ pos ∧ pos ≤ d.end_ + S
        · rw [if_pos hr] at hdx
          cases hdx
          refine ⟨rfl, hprops.1 d hd, ?_⟩
          calc (ds.filterMap _).length ≤ ds.length := List.length_filterMap_le _ _
            _ ≤ 1 := hprops.2
        · rw [if_neg hr] at hdx
          exact absurd hdx (by simp)
    have hheadnd : ls.Nodup := by
      by_cases hls0 : ls = []
      · subst hls0; exact List.nodup_nil
      · rcases List.exists_mem_of_ne_nil ls hls0 with ⟨x, hx⟩
        exact nodup_of_length_le_one (hhead x hx).2.2
    have htail := ih hndr lss2 hlss2
    simp only [List.flatten_cons]
    constructor
    · refine List.Nodup.append hheadnd htail.1 ?_
      intro x hx1 hx2
      have h1 := (hhead x hx1).1
      have h2 := (htail.2 x hx2).2
      rw [h1] at h2
      exact hsr h2
    · intro x hx
      rcases List.mem_append.mp hx with hx1 | hx2
      · refine ⟨(hhead x hx1).2.1, ?_⟩
        rw [(hhead x hx1).1]
        exact List.mem_cons_self s rest
      · exact ⟨(htail.2 x hx2).1, List.mem_cons_of_mem s (htail.2 x hx2).2⟩

/-- The whole-region key collection over the location dictionary yields
duplicate-free keys, each tagged with its source location. -/
theorem gcv_whole_go (pos S : Int) (chrom : String) (vbs : VBS)
    (locs : List (Int × List String)) (ks : List CKey)
    (hA : ∀ lp ∈ locs, List.Nodup lp.2)
    (hE : List.Pairwise (fun p q => p.1 ≠ q.1) locs)
    (hB : ∀ sp ∈ vbs, ∀ cp ∈ sp.2, ∀ pp ∈ cp.2, ∀ d ∈ pp.2, Denovo.start d = pp.1)
    (hC : ∀ sp ∈ vbs, ∀ cp ∈ sp.2, ∀ pp ∈ cp.2, List.length pp.2 ≤ 1)
    (h : (locs.mapM (fun p => close_vars_at_loc pos S chrom vbs p.1 p.2)).map
        List.flatten = some ks) :
    ks.Nodup ∧ ∀ x ∈ ks, ∃ lp ∈ locs, x.2.2 = lp.1 := by
  rcases Option.map_eq_some'.mp h with ⟨lss, hmm, hflat⟩
  subst hflat
  clear h
  induction locs generalizing lss with
  | nil =>
    simp only [List.mapM_nil, pure, Option.some.injEq] at hmm
    subst hmm
    simp
  | cons lp rest ih =>
    rw [List.mapM_cons] at hmm
    rcases Option.bind_eq_some.mp hmm with ⟨ls, hls, hrest⟩
    rcases Option.bind_eq_some.mp hrest with ⟨lss2, hlss2, hpure⟩
    simp only [pure, Option.some.injEq] at hpure
    subst hpure
    have hhead := close_vars_at_loc_spec pos S chrom vbs lp.1 lp.2 ls
      (hA lp (List.mem_cons_self lp rest)) hB hC hls
    have htail := ih (fun q hq => hA q (List.mem_cons_of_mem lp hq))
      (List.pairwise_cons.mp hE).2 lss2 hlss2
    simp only [List.flatten_cons]
    constructor
    · refine List.Nodup.append hhead.1 htail.1 ?_
      intro x hx1 hx2
      rcases htail.2 x hx2 with ⟨qp, hqp, hxq⟩
      have hne : lp.1 ≠ qp.1 := (List.pairwise_cons.mp hE).1 qp hqp
      exact hne ((hhead.2 x hx1).1 ▸ hxq ▸ rfl)
    · intro x hx
      rcases List.mem_append.mp hx with hx1 | hx2
      · exact ⟨lp, List.mem_cons_self lp rest, (hhead.2 x hx1).1⟩
      · rcases htail.2 x hx2 with ⟨qp, hqp, hxq⟩
        exact ⟨qp, List.mem_cons_of_mem lp hqp, hxq⟩

/-- The proximity query returns duplicate-free keys whenever the location
index lists each sample at most once per location, its location keys are
unique, and each bucket of vars_by_sample holds at most one de novo and
only at its own start. -/
theorem get_close_vars_keys_nodup (chrom : String) (pos : Int) (sbl : SBL) (vbs : VBS)
    (S : Int) (wr : Bool) (keys : List CKey)
    (hA : ∀ cl ∈ sbl, ∀ lp ∈ cl.2, List.Nodup lp.2)
    (hE : ∀ cl ∈ sbl, List.Nodup (List.map Prod.fst cl.2))
    (hB : ∀ sp ∈ vbs, ∀ cp ∈ sp.2, ∀ pp ∈ cp.2, ∀ d ∈ pp.2, Denovo.start d = pp.1)
    (hC : ∀ sp ∈ vbs, ∀ cp ∈ sp.2, ∀ pp ∈ cp.2, List.length pp.2 ≤ 1)
    (h : get_close_vars chrom pos sbl vbs S wr = some keys) :
    keys.Nodup := by
  unfold get_close_vars at h
  cases hl : dfind? sbl chrom with
  | none =>
    rw [hl] at h
    simp only [Option.some.injEq] at h
    subst h
    exact List.nodup_nil
  | some locs =>
    rw [hl] at h
    dsimp only at h
    have hmem := dfind?_mem hl
    have hA2 : ∀ lp ∈ locs, List.Nodup lp.2 := fun lp hlp => hA _ hmem lp hlp
    have hE2 : List.Pairwise (fun p q => p.1 ≠ q.1) locs := by
      have h5 : List.Pairwise (fun a b => ¬ a = b) (List.map Prod.fst locs) := hE _ hmem
      exact List.pairwise_map.mp h5
    by_cases hwr : wr = true
    · rw [if_neg (not_not_intro hwr)] at h
      exact (gcv_whole_go pos S chrom vbs locs keys hA2 hE2 hB hC h).1
    · rw [if_pos hwr] at h
      simp only [Option.some.injEq] at h
      subst h
      rw [List.nodup_flatMap]
      constructor
      · intro p hp
        by_cases hr : p.1 - S ≤ pos ∧ pos ≤ p.1 + S
        · rw [if_pos hr]
          refine List.Nodup.map ?_ (hA2 p hp)
          intro a b hab
          simpa using hab
        · rw [if_neg hr]
          exact List.nodup_nil
      · refine hE2.imp ?_
        intro a b hab x hxa hxb
        dsimp only at hxa hxb
        have hxa2 : x.2.2 = a.1 := by
          by_cases hra : a.1 - S ≤ pos ∧ pos ≤ a.1 + S
          · rw [if_pos hra] at hxa
            rcases List.mem_map.mp hxa with ⟨sa, _, hsa⟩
            rw [← hsa]
          · rw [if_neg hra] at hxa
            exact absurd hxa (List.not_mem_nil x)
        have hxb2 : x.2.2 = b.1 := by
          by_cases hrb : b.1 - S ≤ pos ∧ pos ≤ b.1 + S
          · rw [if_pos hrb] at hxb
            rcases List.mem_map.mp hxb with ⟨sb, _, hsb⟩
            rw [← hsb]
          · rw [if_neg hrb] at hxb
            exact absurd hxb (List.not_mem_nil x)
        exact hab (hxa2 ▸ hxb2 ▸ rfl)

/-- C2 amended: one batch step reports one variant to each de novo at most
once, provided the location index lists each sample at most once per
location with unique location keys and every bucket of vars_by_sample
holds at most one de novo, stored at its own start. The lookups that
create_lookups builds satisfy this whenever no two de novos share kid,
chromosome and start and none spans more than two bases. -/
theorem batch_variant_reports_once (ped : Pedigrees) (wr : Bool) (samples : List String)
    (build : String) (t : Tunables) (sbl : SBL) (S : Int) (vbs : VBS) (v : Variant)
    (vbs2 : VBS)
    (hA : ∀ cl ∈ sbl, ∀ lp ∈ cl.2, List.Nodup lp.2)
    (hE : ∀ cl ∈ sbl, List.Nodup (List.map Prod.fst cl.2))
    (hB : ∀ sp ∈ vbs, ∀ cp ∈ sp.2, ∀ pp ∈ cp.2, ∀ d ∈ pp.2, Denovo.start d = pp.1)
    (hC : ∀ sp ∈ vbs, ∀ cp ∈ sp.2, ∀ pp ∈ cp.2, List.length pp.2 ≤ 1)
    (h : batch_process_variant ped wr samples build t sbl S vbs v = some vbs2)
    (kid chrom : String) (pos : Int) :
    List.Forall₂ (fun a b => a.1 ≤ b.1 + 1 ∧ a.2 ≤ b.2 + 1)
      (annotSizes vbs2 kid chrom pos) (annotSizes vbs kid chrom pos) := by
  unfold batch_process_variant at h
  by_cases hcx : complex_variant v
  · rw [if_pos hcx] at h
    simp only [Option.some.injEq] at h
    subst h
    exact sizes_growth_refl _
  · rw [if_neg hcx] at h
    cases hk : get_close_vars v.chrom (v.start + 1) sbl vbs S wr with
    | none =>
      rw [hk] at h
      simp at h
    | some keys =>
      rw [hk] at h
      dsimp only at h
      simp only [Option.some.injEq] at h
      subst h
      have hnd := get_close_vars_keys_nodup v.chrom (v.start + 1) sbl vbs S wr keys
        hA hE hB hC hk
      exact add_good_fold_nodup v ped wr samples build t keys hnd vbs (kid, chrom, pos)

/-- Witness for the amended C2 statement: one variant against the lookup of
a single de novo adds exactly one candidate and one het entry. -/
theorem batch_variant_reports_once_witness :
    List.Forall₂ (fun a b => a.1 ≤ b.1 + 1 ∧ a.2 ≤ b.2 + 1)
      (annotSizes [("k", [("1", [(100, [⟨"1", 100, 101, "k", none,
          some [⟨108, "A", "T", none, "d", "m"⟩], some [⟨108, "A", "T"⟩]⟩])])])]
        "k" "1" 100)
      (annotSizes (create_lookups [d2a] ped1 "na").vbs "k" "1" 100) :=
  batch_variant_reports_once ped1 true ["k", "d", "m"] "na" t1
    (create_lookups [d2a] ped1 "na").sbl 10 (create_lookups [d2a] ped1 "na").vbs v2
    [("k", [("1", [(100, [⟨"1", 100, 101, "k", none,
      some [⟨108, "A", "T", none, "d", "m"⟩], some [⟨108, "A", "T"⟩]⟩])])])]
    (by decide) (by decide) (by decide) (by decide) (by decide) "k" "1" 100

/-- Both sets grow under insertHap. -/
theorem insertHap_sub (g : Grouped) (h : Hap) (n : String) :
    g.alt ⊆ (g.insertHap h n).alt ∧ g.ref ⊆ (g.insertHap h n).ref := by
  cases h <;> simp [Grouped.insertHap, Finset.subset_insert]

/-- The inserted name lands in the union. -/
theorem insertHap_mem_union (g : Grouped) (h : Hap) (n : String) :
    n ∈ (g.insertHap h n).alt ∪ (g.insertHap h n).ref := by
  cases h <;> simp [Grouped.insertHap]

/-- insertHap only adds the given name to the union. -/
theorem insertHap_union (g : Grouped) (h : Hap) (n : String) :
    (g.insertHap h n).alt ∪ (g.insertHap h n).ref = insert n (g.alt ∪ g.ref) := by
  cases h <;> simp [Grouped.insertHap, Finset.insert_union, Finset.union_insert]

/-- insertHap of a fresh name keeps the two sets disjoint. -/
theorem insertHap_disjoint (g : Grouped) (h : Hap) (n : String)
    (ha : n ∉ g.alt) (hr : n ∉ g.ref) (hd : Disjoint g.alt g.ref) :
    Disjoint (g.insertHap h n).alt (g.insertHap h n).ref := by
  cases h
  · simpa [Grouped.insertHap, Finset.disjoint_insert_left] using ⟨hr, hd⟩
  · simpa [Grouped.insertHap, Finset.disjoint_insert_right] using ⟨ha, hd⟩

/-- One readname step either leaves the accumulator alone or assigns the
fresh name to one haplotype and records it. -/
theorem stepName_cases (ctx : GroupCtx) (finder nfa : String) (sitePos : Int)
    (hap : Hap) (acc : Grouped × PairList) (r : String) :
    stepName ctx finder nfa sitePos hap acc r = acc ∨
    (¬ (r ∈ acc.1.ref ∨ r ∈ acc.1.alt) ∧ ∃ h2 : Hap,
      stepName ctx finder nfa sitePos hap acc r =
        (acc.1.insertHap h2 r, acc.2.push h2 (r, sitePos))) := by
  unfold stepName
  by_cases hg : r ∈ acc.1.ref ∨ r ∈ acc.1.alt
  · left
    simp [hg]
  · cases hf : dfind? ctx.fetched_reads r with
    | none => left; simp [hg, hf]
    | some rm =>
      cases ha : get_allele_at rm.1 (some rm.2) sitePos with
      | none => left; simp [hg, hf, ha]
      | some a =>
        by_cases h1 : a = finder
        · right
          exact ⟨hg, hap, by simp [hg, hf, ha, h1]⟩
        · by_cases h2 : a = nfa
          · right
            have h1b : ¬ nfa = finder := h2 ▸ h1
            exact ⟨hg, hap.other, by simp [hg, hf, ha, h1, h1b, h2]⟩
          · left
            simp [hg, hf, ha, h1, h2]

/-- Monotonicity of one readname step. -/
theorem stepName_mono (ctx : GroupCtx) (finder nfa : String) (sitePos : Int)
    (hap : Hap) (acc : Grouped × PairList) (r : String) :
    acc.1.alt ⊆ (stepName ctx finder nfa sitePos hap acc r).1.alt ∧
    acc.1.ref ⊆ (stepName ctx finder nfa sitePos hap acc r).1.ref := by
  rcases stepName_cases ctx finder nfa sitePos hap acc r with h | ⟨-, h2, heq⟩
  · rw [h]
    exact ⟨Finset.Subset.refl _, Finset.Subset.refl _⟩
  · rw [heq]
    exact insertHap_sub acc.1 h2 r

/-- Fold invariant principle with membership information. -/
theorem foldl_inv_mem {α β : Type} (C : β → Prop) (f : β → α → β) (l : List α)
    (hstep : ∀ acc x, x ∈ l → C acc → C (f acc x)) (acc : β) (h : C acc) :
    C (l.foldl f acc) := by
  induction l generalizing acc with
  | nil => exact h
  | cons x xs ih =>
    simp only [List.foldl_cons]
    exact ih (fun b y hy hb => hstep b y (List.mem_cons_of_mem x hy) hb)
      (f acc x) (hstep acc x (List.mem_cons_self x xs) h)

/-- One site step is either a no-op or a readname fold with the resolved
finder and non-finder alleles. -/
theorem stepSite_eq (ctx : GroupCtx) (hap : Hap) (readname : String) (found_pos : Int)
    (acc : Grouped × PairList) (site : Site) :
    stepSite ctx hap readname found_pos acc site = acc ∨
    ∃ finder nfa, stepSite ctx hap readname found_pos acc site =
      ((dfind? ctx.site_reads site.pos).getD []).foldl
        (stepName ctx finder nfa site.pos hap) acc := by
  unfold stepSite
  by_cases h0 : site.pos = found_pos
  · left
    rw [if_pos h0]
  · rw [if_neg h0]
    cases hf : dfind? ctx.fetched_reads readname with
    | none => left; rfl
    | some rm =>
      dsimp only
      cases ha : get_allele_at rm.1 (some rm.2) site.pos with
      | none => left; rfl
      | some finder =>
        dsimp only
        by_cases hr : finder = site.ref_allele
        · right
          refine ⟨finder, site.alt_allele, ?_⟩
          rw [if_pos hr]
        · by_cases ha2 : finder = site.alt_allele
          · right
            refine ⟨finder, site.ref_allele, ?_⟩
            rw [if_neg hr, if_pos ha2]
          · left
            rw [if_neg hr, if_neg ha2]

/-- One pending-entry step is either a no-op or a site fold. -/
theorem stepEntry_eq (ctx : GroupCtx) (hap : Hap) (acc : Grouped × PairList)
    (e : String × Int) :
    stepEntry ctx hap acc e = acc ∨
    ∃ sites, dfind? ctx.read_sites e.1 = some sites ∧
      stepEntry ctx hap acc e = sites.foldl (stepSite ctx hap e.1 e.2) acc := by
  unfold stepEntry
  cases hs : dfind? ctx.read_sites e.1 with
  | none => left; rfl
  | some sites => right; exact ⟨sites, rfl, rfl⟩

/-- Monotonicity of the readname fold. -/
theorem nameFold_mono (ctx : GroupCtx) (finder nfa : String) (sitePos : Int)
    (hap : Hap) (l : List String) (acc : Grouped × PairList) :
    acc.1.alt ⊆ (l.foldl (stepName ctx finder nfa sitePos hap) acc).1.alt ∧
    acc.1.ref ⊆ (l.foldl (stepName ctx finder nfa sitePos hap) acc).1.ref := by
  refine foldl_inv_mem
    (fun b => acc.1.alt ⊆ b.1.alt ∧ acc.1.ref ⊆ b.1.ref)
    (stepName ctx finder nfa sitePos hap) l ?_ acc
    ⟨Finset.Subset.refl _, Finset.Subset.refl _⟩
  intro b x _ hb
  exact ⟨hb.1.trans (stepName_mono ctx finder nfa sitePos hap b x).1,
    hb.2.trans (stepName_mono ctx finder nfa sitePos hap b x).2⟩

/-- Monotonicity of one site step. -/
theorem stepSite_mono (ctx : GroupCtx) (hap : Hap) (readname : String) (found_pos : Int)
    (acc : Grouped × PairList) (site : Site) :
    acc.1.alt ⊆ (stepSite ctx hap readname found_pos acc site).1.alt ∧
    acc.1.ref ⊆ (stepSite ctx hap readname found_pos acc site).1.ref := by
  rcases stepSite_eq ctx hap readname found_pos acc site with h | ⟨finder, nfa, h⟩
  · rw [h]
    exact ⟨Finset.Subset.refl _, Finset.Subset.refl _⟩
  · rw [h]
    exact nameFold_mono ctx finder nfa site.pos hap _ acc

/-- Monotonicity of one pending-entry step. -/
theorem stepEntry_mono (ctx : GroupCtx) (hap : Hap) (acc : Grouped × PairList)
    (e : String × Int) :
    acc.1.alt ⊆ (stepEntry ctx hap acc e).1.alt ∧
    acc.1.ref ⊆ (stepEntry ctx hap acc e).1.ref := by
  rcases stepEntry_eq ctx hap acc e with h | ⟨sites, -, h⟩
  · rw [h]
    exact ⟨Finset.Subset.refl _, Finset.Subset.refl _⟩
  · rw [h]
    refine foldl_inv_mem
      (fun b => acc.1.alt ⊆ b.1.alt ∧ acc.1.ref ⊆ b.1.ref)
      (stepSite ctx hap e.1 e.2) sites ?_ acc
      ⟨Finset.Subset.refl _, Finset.Subset.refl _⟩
    intro b x _ hb
    exact ⟨hb.1.trans (stepSite_mono ctx hap e.1 e.2 b x).1,
      hb.2.trans (stepSite_mono ctx hap e.1 e.2 b x).2⟩

/-- Monotonicity of the pending-entry fold. -/
theorem entryFold_mono (ctx : GroupCtx) (hap : Hap) (l : List (String × Int))
    (acc : Grouped × PairList) :
    acc.1.alt ⊆ (l.foldl (stepEntry ctx hap) acc).1.alt ∧
    acc.1.ref ⊆ (l.foldl (stepEntry ctx hap) acc).1.ref := by
  refine foldl_inv_mem
    (fun b => acc.1.alt ⊆ b.1.alt ∧ acc.1.ref ⊆ b.1.ref)
    (stepEntry ctx hap) l ?_ acc ⟨Finset.Subset.refl _, Finset.Subset.refl _⟩
  intro b x _ hb
  exact ⟨hb.1.trans (stepEntry_mono ctx hap b x).1,
    hb.2.trans (stepEntry_mono ctx hap b x).2⟩

/-- Monotonicity of one full pass. -/
theorem connect_pass_mono (ctx : GroupCtx) (g : Grouped) (nr : PairList) :
    g.alt ⊆ (connect_pass ctx g nr).1.alt ∧ g.ref ⊆ (connect_pass ctx g nr).1.ref := by
  unfold connect_pass
  have h1 := entryFold_mono ctx Hap.alt nr.alt (g, (⟨[], []⟩ : PairList))
  have h2 := entryFold_mono ctx Hap.ref nr.ref
    (nr.alt.foldl (stepEntry ctx Hap.alt) (g, (⟨[], []⟩ : PairList)))
  exact ⟨h1.1.trans h2.1, h1.2.trans h2.2⟩

/-- One readname step preserves disjointness of the two haplotype sets. -/
theorem stepName_disjoint (ctx : GroupCtx) (finder nfa : String) (sitePos : Int)
    (hap : Hap) (acc : Grouped × PairList) (r : String)
    (h : Disjoint acc.1.alt acc.1.ref) :
    Disjoint (stepName ctx finder nfa sitePos hap acc r).1.alt
      (stepName ctx finder nfa sitePos hap acc r).1.ref := by
  rcases stepName_cases ctx finder nfa sitePos hap acc r with heq | ⟨hg, h2, heq⟩
  · rw [heq]; exact h
  · rw [heq]
    exact insertHap_disjoint acc.1 h2 r (fun hh => hg (Or.inr hh))
      (fun hh => hg (Or.inl hh)) h

/-- One site step preserves disjointness. -/
theorem stepSite_disjoint (ctx : GroupCtx) (hap : Hap) (readname : String)
    (found_pos : Int) (acc : Grouped × PairList) (site : Site)
    (h : Disjoint acc.1.alt acc.1.ref) :
    Disjoint (stepSite ctx hap readname found_pos acc site).1.alt
      (stepSite ctx hap readname found_pos acc site).1.ref := by
  rcases stepSite_eq ctx hap readname found_pos acc site with heq | ⟨finder, nfa, heq⟩
  · rw [heq]; exact h
  · rw [heq]
    refine foldl_inv_mem (fun b => Disjoint b.1.alt b.1.ref)
      (stepName ctx finder nfa site.pos hap) _ ?_ acc h
    intro b x _ hb
    exact stepName_disjoint ctx finder nfa site.pos hap b x hb

/-- One pending-entry step preserves disjointness. -/
theorem stepEntry_disjoint (ctx : GroupCtx) (hap : Hap) (acc : Grouped × PairList)
    (e : String × Int) (h : Disjoint acc.1.alt acc.1.ref) :
    Disjoint (stepEntry ctx hap acc e).1.alt (stepEntry ctx hap acc e).1.ref := by
  rcases stepEntry_eq ctx hap acc e with heq | ⟨sites, -, heq⟩
  · rw [heq]; exact h
  · rw [heq]
    refine foldl_inv_mem (fun b => Disjoint b.1.alt b.1.ref)
      (stepSite ctx hap e.1 e.2) sites ?_ acc h
    intro b x _ hb
    exact stepSite_disjoint ctx hap e.1 e.2 b x hb

/-- One full pass preserves disjointness. -/
theorem connect_pass_disjoint (ctx : GroupCtx) (g : Grouped) (nr : PairList)
    (h : Disjoint g.alt g.ref) :
    Disjoint (connect_pass ctx g nr).1.alt (connect_pass ctx g nr).1.ref := by
  unfold connect_pass
  refine foldl_inv_mem (fun b => Disjoint b.1.alt b.1.ref)
    (stepEntry ctx Hap.ref) nr.ref ?_
    (nr.alt.foldl (stepEntry ctx Hap.alt) (g, (⟨[], []⟩ : PairList))) ?_
  · intro b x _ hb
    exact stepEntry_disjoint ctx Hap.ref b x hb
  · refine foldl_inv_mem (fun b => Disjoint b.1.alt b.1.ref)
      (stepEntry ctx Hap.alt) nr.alt ?_ (g, (⟨[], []⟩ : PairList)) h
    intro b x _ hb
    exact stepEntry_disjoint ctx Hap.alt b x hb

/-- Unfolding of the fuel-indexed closure at a successor. -/
theorem connect_reads_fuel_succ (ctx : GroupCtx) (m : Nat) (g : Grouped) (nr : PairList) :
    connect_reads_fuel ctx (m + 1) g nr =
      (if (connect_pass ctx g nr).2.alt.length + (connect_pass ctx g nr).2.ref.length > 0
        then connect_reads_fuel ctx m (connect_pass ctx g nr).1 (connect_pass ctx g nr).2
        else (connect_pass ctx g nr).1) := rfl

/-- The closure at any fuel preserves disjointness. -/
theorem connect_reads_fuel_disjoint (ctx : GroupCtx) (n : Nat) (g : Grouped)
    (nr : PairList) (h : Disjoint g.alt g.ref) :
    Disjoint (connect_reads_fuel ctx n g nr).alt (connect_reads_fuel ctx n g nr).ref := by
  induction n generalizing g nr with
  | zero => exact h
  | succ m ih =>
    rw [connect_reads_fuel_succ]
    by_cases hc : (connect_pass ctx g nr).2.alt.length +
        (connect_pass ctx g nr).2.ref.length > 0
    · rw [if_pos hc]
      exact ih _ _ (connect_pass_disjoint ctx g nr h)
    · rw [if_neg hc]
      exact connect_pass_disjoint ctx g nr h

/-- The closure at any fuel only grows the two sets. -/
theorem connect_reads_fuel_mono (ctx : GroupCtx) (n : Nat) (g : Grouped)
    (nr : PairList) :
    g.alt ⊆ (connect_reads_fuel ctx n g nr).alt ∧
    g.ref ⊆ (connect_reads_fuel ctx n g nr).ref := by
  induction n generalizing g nr with
  | zero => exact ⟨Finset.Subset.refl _, Finset.Subset.refl _⟩
  | succ m ih =>
    rw [connect_reads_fuel_succ]
    by_cases hc : (connect_pass ctx g nr).2.alt.length +
        (connect_pass ctx g nr).2.ref.length > 0
    · rw [if_pos hc]
      exact ⟨(connect_pass_mono ctx g nr).1.trans (ih _ _).1,
        (connect_pass_mono ctx g nr).2.trans (ih _ _).2⟩
    · rw [if_neg hc]
      exact connect_pass_mono ctx g nr

/-- The starting set survives the universe fold. -/
theorem foldl_union_base (d : Dict Int (List String)) (s : Finset String) :
    s ⊆ d.foldl (fun s2 p => s2 ∪ p.2.toFinset) s := by
  induction d generalizing s with
  | nil => exact Finset.Subset.refl _
  | cons q rest ih =>
    simp only [List.foldl_cons]
    exact Finset.Subset.trans Finset.subset_union_left (ih _)

/-- Every name listed at a site belongs to the name universe. -/
theorem site_reads_subset_universe (ctx : GroupCtx) (pos : Int) (l : List String)
    (h : dfind? ctx.site_reads pos = some l) : ∀ r ∈ l, r ∈ groupUniverse ctx := by
  have hm := dfind?_mem h
  unfold groupUniverse
  suffices haux : ∀ (d : Dict Int (List String)) (s : Finset String), (pos, l) ∈ d →
      ∀ r ∈ l, r ∈ d.foldl (fun s2 p => s2 ∪ p.2.toFinset) s by
    exact haux ctx.site_reads ∅ hm
  intro d
  induction d with
  | nil =>
    intro s hmem
    exact absurd hmem (List.not_mem_nil _)
  | cons q rest ih =>
    intro s hmem r hr
    simp only [List.foldl_cons]
    rcases List.mem_cons.mp hmem with hq | hrest
    · refine foldl_union_base rest _ ?_
      rw [← hq]
      exact Finset.mem_union_right _ (List.mem_toFinset.mpr hr)
    · exact ih _ hrest r hr

/-- One readname step preserves the freshness invariant: every recorded
entry names a universe member that is now assigned and was unassigned at
the start of the pass. -/
theorem stepName_fresh (ctx : GroupCtx) (finder nfa : String) (sitePos : Int)
    (hap : Hap) (g0 : Grouped) (acc : Grouped × PairList) (r : String)
    (hr : r ∈ groupUniverse ctx)
    (h : (∀ p : String × Int, p ∈ acc.2.alt ∨ p ∈ acc.2.ref →
        p.1 ∈ groupUniverse ctx ∧ p.1 ∈ acc.1.alt ∪ acc.1.ref ∧
        p.1 ∉ g0.alt ∪ g0.ref) ∧ g0.alt ⊆ acc.1.alt ∧ g0.ref ⊆ acc.1.ref) :
    (∀ p : String × Int,
        p ∈ (stepName ctx finder nfa sitePos hap acc r).2.alt ∨
        p ∈ (stepName ctx finder nfa sitePos hap acc r).2.ref →
        p.1 ∈ groupUniverse ctx ∧
        p.1 ∈ (stepName ctx finder nfa sitePos hap acc r).1.alt ∪
          (stepName ctx finder nfa sitePos hap acc r).1.ref ∧
        p.1 ∉ g0.alt ∪ g0.ref) ∧
    g0.alt ⊆ (stepName ctx finder nfa sitePos hap acc r).1.alt ∧
    g0.ref ⊆ (stepName ctx finder nfa sitePos hap acc r).1.ref := by
  rcases stepName_cases ctx finder nfa sitePos hap acc r with heq | ⟨hg, h2, heq⟩ <;>
    rw [heq]
  · exact h
  · refine ⟨?_, h.2.1.trans (insertHap_sub acc.1 h2 r).1,
      h.2.2.trans (insertHap_sub acc.1 h2 r).2⟩
    intro p hp
    have hp2 : (p ∈ acc.2.alt ∨ p ∈ acc.2.ref) ∨ p = (r, sitePos) := by
      cases h2
      · have hp3 : p ∈ List.append acc.2.alt [(r, sitePos)] ∨ p ∈ acc.2.ref := hp
        rcases hp3 with hp3 | hp3
        · rcases List.mem_append.mp hp3 with h3 | h3
          · exact Or.inl (Or.inl h3)
          · exact Or.inr (List.mem_singleton.mp h3)
        · exact Or.inl (Or.inr hp3)
      · have hp3 : p ∈ acc.2.alt ∨ p ∈ List.append acc.2.ref [(r, sitePos)] := hp
        rcases hp3 with hp3 | hp3
        · exact Or.inl (Or.inl hp3)
        · rcases List.mem_append.mp hp3 with h3 | h3
          · exact Or.inl (Or.inr h3)
          · exact Or.inr (List.mem_singleton.mp h3)
    rcases hp2 with hold | hnew
    · have hprev := h.1 p hold
      refine ⟨hprev.1, ?_, hprev.2.2⟩
      rw [insertHap_union]
      exact Finset.mem_insert_of_mem hprev.2.1
    · subst hnew
      refine ⟨hr, insertHap_mem_union acc.1 h2 r, ?_⟩
      intro hmem
      rcases Finset.mem_union.mp hmem with hA | hR
      · exact hg (Or.inr (h.2.1 hA))
      · exact hg (Or.inl (h.2.2 hR))

/-- One site step preserves the freshness invariant. -/
theorem stepSite_fresh (ctx : GroupCtx) (hap : Hap) (readname : String)
    (found_pos : Int) (g0 : Grouped) (acc : Grouped × PairList) (site : Site)
    (h : (∀ p : String × Int, p ∈ acc.2.alt ∨ p ∈ acc.2.ref →
        p.1 ∈ groupUniverse ctx ∧ p.1 ∈ acc.1.alt ∪ acc.1.ref ∧
        p.1 ∉ g0.alt ∪ g0.ref) ∧ g0.alt ⊆ acc.1.alt ∧ g0.ref ⊆ acc.1.ref) :
    (∀ p : String × Int,
        p ∈ (stepSite ctx hap readname found_pos acc site).2.alt ∨
        p ∈ (stepSite ctx hap readname found_pos acc site).2.ref →
        p.1 ∈ groupUniverse ctx ∧
        p.1 ∈ (stepSite ctx hap readname found_pos acc site).1.alt ∪
          (stepSite ctx hap readname found_pos acc site).1.ref ∧
        p.1 ∉ g0.alt ∪ g0.ref) ∧
    g0.alt ⊆ (stepSite ctx hap readname found_pos acc site).1.alt ∧
    g0.ref ⊆ (stepSite ctx hap readname found_pos acc site).1.ref := by
  rcases stepSite_eq ctx hap readname found_pos acc site with heq | ⟨finder, nfa, heq⟩ <;>
    rw [heq]
  · exact h
  · cases hsr : dfind? ctx.site_reads site.pos with
    | none => exact h
    | some l =>
      refine foldl_inv_mem (fun b =>
        (∀ p : String × Int, p ∈ b.2.alt ∨ p ∈ b.2.ref →
          p.1 ∈ groupUniverse ctx ∧ p.1 ∈ b.1.alt ∪ b.1.ref ∧
          p.1 ∉ g0.alt ∪ g0.ref) ∧ g0.alt ⊆ b.1.alt ∧ g0.ref ⊆ b.1.ref)
        (stepName ctx finder nfa site.pos hap) ((some l).getD []) ?_ acc h
      intro b x hx hb
      exact stepName_fresh ctx finder nfa site.pos hap g0 b x
        (site_reads_subset_universe ctx site.pos l hsr x hx) hb

/-- One pending-entry step preserves the freshness invariant. -/
theorem stepEntry_fresh (ctx : GroupCtx) (hap : Hap) (g0 : Grouped)
    (acc : Grouped × PairList) (e : String × Int)
    (h : (∀ p : String × Int, p ∈ acc.2.alt ∨ p ∈ acc.2.ref →
        p.1 ∈ groupUniverse ctx ∧ p.1 ∈ acc.1.alt ∪ acc.1.ref ∧
        p.1 ∉ g0.alt ∪ g0.ref) ∧ g0.alt ⊆ acc.1.alt ∧ g0.ref ⊆ acc.1.ref) :
    (∀ p : String × Int,
        p ∈ (stepEntry ctx hap acc e).2.alt ∨ p ∈ (stepEntry ctx hap acc e).2.ref →
        p.1 ∈ groupUniverse ctx ∧
        p.1 ∈ (stepEntry ctx hap acc e).1.alt ∪ (stepEntry ctx hap acc e).1.ref ∧
        p.1 ∉ g0.alt ∪ g0.ref) ∧
    g0.alt ⊆ (stepEntry ctx hap acc e).1.alt ∧ g0.ref ⊆ (stepEntry ctx hap acc e).1.ref := by
  rcases stepEntry_eq ctx hap acc e with heq | ⟨sites, -, heq⟩ <;> rw [heq]
  · exact h
  · refine foldl_inv_mem (fun b =>
      (∀ p : String × Int, p ∈ b.2.alt ∨ p ∈ b.2.ref →
        p.1 ∈ groupUniverse ctx ∧ p.1 ∈ b.1.alt ∪ b.1.ref ∧
        p.1 ∉ g0.alt ∪ g0.ref) ∧ g0.alt ⊆ b.1.alt ∧ g0.ref ⊆ b.1.ref)
      (stepSite ctx hap e.1 e.2) sites ?_ acc h
    intro b x _ hb
    exact stepSite_fresh ctx hap e.1 e.2 g0 b x hb

/-- One full pass satisfies the freshness invariant from its start state. -/
theorem connect_pass_fresh (ctx : GroupCtx) (g : Grouped) (nr : PairList) :
    ∀ p : String × Int,
      p ∈ (connect_pass ctx g nr).2.alt ∨ p ∈ (connect_pass ctx g nr).2.ref →
      p.1 ∈ groupUniverse ctx ∧
      p.1 ∈ (connect_pass ctx g nr).1.alt ∪ (connect_pass ctx g nr).1.ref ∧
      p.1 ∉ g.alt ∪ g.ref := by
  have hbase : (∀ p : String × Int,
      p ∈ (⟨[], []⟩ : PairList).alt ∨ p ∈ (⟨[], []⟩ : PairList).ref →
      p.1 ∈ groupUniverse ctx ∧ p.1 ∈ g.alt ∪ g.ref ∧ p.1 ∉ g.alt ∪ g.ref) ∧
      g.alt ⊆ g.alt ∧ g.ref ⊆ g.ref := by
    refine ⟨?_, Finset.Subset.refl _, Finset.Subset.refl _⟩
    intro p hp
    rcases hp with hp | hp <;> exact absurd hp (List.not_mem_nil p)
  have h1 := foldl_inv_mem (fun b =>
      (∀ p : String × Int, p ∈ b.2.alt ∨ p ∈ b.2.ref →
        p.1 ∈ groupUniverse ctx ∧ p.1 ∈ b.1.alt ∪ b.1.ref ∧
        p.1 ∉ g.alt ∪ g.ref) ∧ g.alt ⊆ b.1.alt ∧ g.ref ⊆ b.1.ref)
    (stepEntry ctx Hap.alt) nr.alt
    (fun b x _ hb => stepEntry_fresh ctx Hap.alt g b x hb)
    (g, (⟨[], []⟩ : PairList)) hbase
  have h2 := foldl_inv_mem (fun b =>
      (∀ p : String × Int, p ∈ b.2.alt ∨ p ∈ b.2.ref →
        p.1 ∈ groupUniverse ctx ∧ p.1 ∈ b.1.alt ∪ b.1.ref ∧
        p.1 ∉ g.alt ∪ g.ref) ∧ g.alt ⊆ b.1.alt ∧ g.ref ⊆ b.1.ref)
    (stepEntry ctx Hap.ref) nr.ref
    (fun b x _ hb => stepEntry_fresh ctx Hap.ref g b x hb)
    (nr.alt.foldl (stepEntry ctx Hap.alt) (g, (⟨[], []⟩ : PairList))) h1
  exact h2.1

/-- A pass that assigns something strictly shrinks the unassigned pool. -/
theorem connect_pass_measure (ctx : GroupCtx) (g : Grouped) (nr : PairList)
    (hne : (connect_pass ctx g nr).2.alt.length + (connect_pass ctx g nr).2.ref.length > 0) :
    (groupUniverse ctx \
        ((connect_pass ctx g nr).1.alt ∪ (connect_pass ctx g nr).1.ref)).card <
      (groupUniverse ctx \ (g.alt ∪ g.ref)).card := by
  have hfresh := connect_pass_fresh ctx g nr
  have hmono := connect_pass_mono ctx g nr
  obtain ⟨p, hp⟩ : ∃ p : String × Int,
      p ∈ (connect_pass ctx g nr).2.alt ∨ p ∈ (connect_pass ctx g nr).2.ref := by
    cases halt : (connect_pass ctx g nr).2.alt with
    | cons q rest => exact ⟨q, Or.inl (halt ▸ List.mem_cons_self q rest)⟩
    | nil =>
      cases href : (connect_pass ctx g nr).2.ref with
      | cons q rest => exact ⟨q, Or.inr (href ▸ List.mem_cons_self q rest)⟩
      | nil =>
        rw [halt, href] at hne
        simp at hne
  have hfacts := hfresh p hp
  refine Finset.card_lt_card ?_
  rw [Finset.ssubset_def]
  constructor
  · intro x hx
    rcases Finset.mem_sdiff.mp hx with ⟨hxu, hxn⟩
    refine Finset.mem_sdiff.mpr ⟨hxu, fun hin => hxn ?_⟩
    rcases Finset.mem_union.mp hin with hA | hR
    · exact Finset.mem_union_left _ (hmono.1 hA)
    · exact Finset.mem_union_right _ (hmono.2 hR)
  · intro hsup
    have hp1 : p.1 ∈ groupUniverse ctx \ (g.alt ∪ g.ref) :=
      Finset.mem_sdiff.mpr ⟨hfacts.1, hfacts.2.2⟩
    have hp2 := hsup hp1
    exact (Finset.mem_sdiff.mp hp2).2 hfacts.2.1

/-- Above the fuel bound, one more unit of fuel changes nothing. -/
theorem connect_reads_fuel_stable (ctx : GroupCtx) (n : Nat) :
    ∀ (g : Grouped) (nr : PairList), connectBound ctx g ≤ n →
      connect_reads_fuel ctx n g nr = connect_reads_fuel ctx (n + 1) g nr := by
  induction n with
  | zero =>
    intro g nr hb
    exact absurd hb (by unfold connectBound; omega)
  | succ m ih =>
    intro g nr hb
    rw [connect_reads_fuel_succ ctx m, connect_reads_fuel_succ ctx (m + 1)]
    by_cases hc : (connect_pass ctx g nr).2.alt.length +
        (connect_pass ctx g nr).2.ref.length > 0
    · rw [if_pos hc, if_pos hc]
      refine ih (connect_pass ctx g nr).1 (connect_pass ctx g nr).2 ?_
      have hdec := connect_pass_measure ctx g nr hc
      unfold connectBound at hb ⊢
      omega
    · rw [if_neg hc, if_neg hc]

/-- Any extra fuel beyond the bound leaves connect_reads unchanged. -/
theorem connect_reads_fuel_ge (ctx : GroupCtx) (g : Grouped) (nr : PairList) (k : Nat) :
    connect_reads_fuel ctx (connectBound ctx g + k) g nr = connect_reads ctx g nr := by
  induction k with
  | zero => rfl
  | succ j ih =>
    have hstep := connect_reads_fuel_stable ctx (connectBound ctx g + j) g nr
      (Nat.le_add_right _ _)
    calc connect_reads_fuel ctx (connectBound ctx g + (j + 1)) g nr
        = connect_reads_fuel ctx ((connectBound ctx g + j) + 1) g nr := by
          rw [Nat.add_assoc]
      _ = connect_reads_fuel ctx (connectBound ctx g + j) g nr := hstep.symm
      _ = connect_reads ctx g nr := ih

/-- A readname step on a state that already contains everything the step
could add is a no-op. -/
theorem stepName_absorb (ctx : GroupCtx) (finder nfa : String) (sitePos : Int)
    (hap : Hap) (acc : Grouped × PairList) (r : String) (t : Grouped) (ta : PairList)
    (habs : (stepName ctx finder nfa sitePos hap acc r).1.alt ⊆ t.alt ∧
            (stepName ctx finder nfa sitePos hap acc r).1.ref ⊆ t.ref) :
    stepName ctx finder nfa sitePos hap (t, ta) r = (t, ta) := by
  have hsub : acc.1.alt ⊆ t.alt ∧ acc.1.ref ⊆ t.ref :=
    ⟨(stepName_mono ctx finder nfa sitePos hap acc r).1.trans habs.1,
     (stepName_mono ctx finder nfa sitePos hap acc r).2.trans habs.2⟩
  by_cases hgt : r ∈ t.ref ∨ r ∈ t.alt
  · unfold stepName
    dsimp only
    rw [if_pos hgt]
  · have hga : ¬ (r ∈ acc.1.ref ∨ r ∈ acc.1.alt) := by
      intro hin
      exact hgt (hin.elim (fun hh => Or.inl (hsub.2 hh)) (fun hh => Or.inr (hsub.1 hh)))
    unfold stepName
    dsimp only
    rw [if_neg hgt]
    cases hf : dfind? ctx.fetched_reads r with
    | none => rfl
    | some rm =>
      dsimp only
      cases ha : get_allele_at rm.1 (some rm.2) sitePos with
      | none => rfl
      | some a =>
        dsimp only
        by_cases h1 : a = finder
        · exfalso
          have hstep : stepName ctx finder nfa sitePos hap acc r =
              (acc.1.insertHap hap r, acc.2.push hap (r, sitePos)) := by
            unfold stepName
            dsimp only
            rw [if_neg hga, hf]
            dsimp only
            rw [ha]
            dsimp only
            rw [if_pos h1]
          rw [hstep] at habs
          have hm := insertHap_mem_union acc.1 hap r
          rcases Finset.mem_union.mp hm with hA | hR
          · exact hgt (Or.inr (habs.1 hA))
          · exact hgt (Or.inl (habs.2 hR))
        · rw [if_neg h1]
          by_cases h2 : a = nfa
          · exfalso
            have hstep : stepName ctx finder nfa sitePos hap acc r =
                (acc.1.insertHap hap.other r, acc.2.push hap.other (r, sitePos)) := by
              unfold stepName
              dsimp only
              rw [if_neg hga, hf]
              dsimp only
              rw [ha]
              dsimp only
              rw [if_neg h1, if_pos h2]
            rw [hstep] at habs
            have hm := insertHap_mem_union acc.1 hap.other r
            rcases Finset.mem_union.mp hm with hA | hR
            · exact hgt (Or.inr (habs.1 hA))
            · exact hgt (Or.inl (habs.2 hR))
          · rw [if_neg h2]

/-- Generic set monotonicity of a fold from step monotonicity. -/
theorem foldl_sets_mono {α : Type} (f : (Grouped × PairList) → α → Grouped × PairList)
    (hmono : ∀ acc x, acc.1.alt ⊆ (f acc x).1.alt ∧ acc.1.ref ⊆ (f acc x).1.ref)
    (l : List α) (acc : Grouped × PairList) :
    acc.1.alt ⊆ (l.foldl f acc).1.alt ∧ acc.1.ref ⊆ (l.foldl f acc).1.ref := by
  refine foldl_inv_mem (fun b => acc.1.alt ⊆ b.1.alt ∧ acc.1.ref ⊆ b.1.ref) f l ?_ acc
    ⟨Finset.Subset.refl _, Finset.Subset.refl _⟩
  intro b x _ hb
  exact ⟨hb.1.trans (hmono b x).1, hb.2.trans (hmono b x).2⟩

/-- A fold on a state that already contains everything the fold from a
smaller state could add is a no-op. -/
theorem foldl_absorb {α : Type} (f : (Grouped × PairList) → α → Grouped × PairList)
    (hmono : ∀ acc x, acc.1.alt ⊆ (f acc x).1.alt ∧ acc.1.ref ⊆ (f acc x).1.ref)
    (habs : ∀ (acc : Grouped × PairList) (x : α) (t : Grouped) (ta : PairList),
      (f acc x).1.alt ⊆ t.alt → (f acc x).1.ref ⊆ t.ref → f (t, ta) x = (t, ta))
    (l : List α) (acc : Grouped × PairList) (t : Grouped) (ta : PairList)
    (hfin : (l.foldl f acc).1.alt ⊆ t.alt ∧ (l.foldl f acc).1.ref ⊆ t.ref) :
    l.foldl f (t, ta) = (t, ta) := by
  induction l generalizing acc t ta with
  | nil => rfl
  | cons x xs ih =>
    simp only [List.foldl_cons] at hfin ⊢
    have hmid := foldl_sets_mono f hmono xs (f acc x)
    have hstep := habs acc x t ta (hmid.1.trans hfin.1) (hmid.2.trans hfin.2)
    rw [hstep]
    exact ih (f acc x) t ta hfin

/-- A site step on an absorbing state is a no-op. -/
theorem stepSite_absorb (ctx : GroupCtx) (hap : Hap) (readname : String)
    (found_pos : Int) (acc : Grouped × PairList) (site : Site) (t : Grouped)
    (ta : PairList)
    (habs : (stepSite ctx hap readname found_pos acc site).1.alt ⊆ t.alt ∧
            (stepSite ctx hap readname found_pos acc site).1.ref ⊆ t.ref) :
    stepSite ctx hap readname found_pos (t, ta) site = (t, ta) := by
  unfold stepSite at habs ⊢
  by_cases h0 : site.pos = found_pos
  · rw [if_pos h0]
  · rw [if_neg h0] at habs ⊢
    cases hfx : dfind? ctx.fetched_reads readname with
    | none => rfl
    | some rm =>
      rw [hfx] at habs
      dsimp only at habs ⊢
      cases hax : get_allele_at rm.1 (some rm.2) site.pos with
      | none => rfl
      | some finder =>
        rw [hax] at habs
        dsimp only at habs ⊢
        by_cases hr : finder = site.ref_allele
        · rw [if_pos hr] at habs ⊢
          exact foldl_absorb (stepName ctx finder site.alt_allele site.pos hap)
            (stepName_mono ctx finder site.alt_allele site.pos hap)
            (fun b x t2 ta2 hA hR =>
              stepName_absorb ctx finder site.alt_allele site.pos hap b x t2 ta2 ⟨hA, hR⟩)
            _ acc t ta habs
        · rw [if_neg hr] at habs ⊢
          by_cases ha2 : finder = site.alt_allele
          · rw [if_pos ha2] at habs ⊢
            exact foldl_absorb (stepName ctx finder site.ref_allele site.pos hap)
              (stepName_mono ctx finder site.ref_allele site.pos hap)
              (fun b x t2 ta2 hA hR =>
                stepName_absorb ctx finder site.ref_allele site.pos hap b x t2 ta2 ⟨hA, hR⟩)
              _ acc t ta habs
          · rw [if_neg ha2]

/-- A pending-entry step on an absorbing state is a no-op. -/
theorem stepEntry_absorb (ctx : GroupCtx) (hap : Hap) (acc : Grouped × PairList)
    (e : String × Int) (t : Grouped) (ta : PairList)
    (habs : (stepEntry ctx hap acc e).1.alt ⊆ t.alt ∧
            (stepEntry ctx hap acc e).1.ref ⊆ t.ref) :
    stepEntry ctx hap (t, ta) e = (t, ta) := by
  unfold stepEntry at habs ⊢
  cases hs : dfind? ctx.read_sites e.1 with
  | none => rfl
  | some sites =>
    rw [hs] at habs
    dsimp only at habs ⊢
    exact foldl_absorb (stepSite ctx hap e.1 e.2) (stepSite_mono ctx hap e.1 e.2)
      (fun b x t2 ta2 hA hR => stepSite_absorb ctx hap e.1 e.2 b x t2 ta2 ⟨hA, hR⟩)
      sites acc t ta habs

/-- A pass from a state that contains the result of a pass from a smaller
state assigns nothing. -/
theorem connect_pass_absorb (ctx : GroupCtx) (g : Grouped) (nr : PairList) (t : Grouped)
    (hfin : (connect_pass ctx g nr).1.alt ⊆ t.alt ∧
            (connect_pass ctx g nr).1.ref ⊆ t.ref) :
    connect_pass ctx t nr = (t, (⟨[], []⟩ : PairList)) := by
  unfold connect_pass at hfin ⊢
  have hmid := foldl_sets_mono (stepEntry ctx Hap.ref)
    (fun b x => stepEntry_mono ctx Hap.ref b x) nr.ref
    (nr.alt.foldl (stepEntry ctx Hap.alt) (g, (⟨[], []⟩ : PairList)))
  have h1 : (nr.alt.foldl (stepEntry ctx Hap.alt) (g, (⟨[], []⟩ : PairList))).1.alt ⊆ t.alt ∧
      (nr.alt.foldl (stepEntry ctx Hap.alt) (g, (⟨[], []⟩ : PairList))).1.ref ⊆ t.ref :=
    ⟨hmid.1.trans hfin.1, hmid.2.trans hfin.2⟩
  have ha := foldl_absorb (stepEntry ctx Hap.alt)
    (fun b x => stepEntry_mono ctx Hap.alt b x)
    (fun b x t2 ta2 hA hR => stepEntry_absorb ctx Hap.alt b x t2 ta2 ⟨hA, hR⟩)
    nr.alt (g, (⟨[], []⟩ : PairList)) t (⟨[], []⟩ : PairList) h1
  rw [ha]
  exact foldl_absorb (stepEntry ctx Hap.ref)
    (fun b x => stepEntry_mono ctx Hap.ref b x)
    (fun b x t2 ta2 hA hR => stepEntry_absorb ctx Hap.ref b x t2 ta2 ⟨hA, hR⟩)
    nr.ref (nr.alt.foldl (stepEntry ctx Hap.alt) (g, (⟨[], []⟩ : PairList))) t
    (⟨[], []⟩ : PairList) hfin

/-- One pass from the seed is contained in the full closure. -/
theorem connect_pass_sub_connect_reads (ctx : GroupCtx) (g : Grouped) (nr : PairList) :
    (connect_pass ctx g nr).1.alt ⊆ (connect_reads ctx g nr).alt ∧
    (connect_pass ctx g nr).1.ref ⊆ (connect_reads ctx g nr).ref := by
  unfold connect_reads connectBound
  rw [connect_reads_fuel_succ]
  by_cases hc : (connect_pass ctx g nr).2.alt.length +
      (connect_pass ctx g nr).2.ref.length > 0
  · rw [if_pos hc]
    exact connect_reads_fuel_mono ctx _ _ _
  · rw [if_neg hc]
    exact ⟨Finset.Subset.refl _, Finset.Subset.refl _⟩

/-- C6: for every grouper input whose seed haplotype sets are disjoint (as
in group_reads_by_haplotype, where ref starts empty), no read name is ever
a member of both the alt and the ref read-name set: the state after every
iteration of connect_reads, and the final grouped_readsets, keep the two
sets disjoint. -/
theorem grouper_alt_ref_disjoint (ctx : GroupCtx) (g : Grouped) (nr : PairList)
    (h : Disjoint g.alt g.ref) :
    (∀ n : Nat, Disjoint (connect_reads_fuel ctx n g nr).alt
        (connect_reads_fuel ctx n g nr).ref) ∧
    Disjoint (connect_reads ctx g nr).alt (connect_reads ctx g nr).ref :=
  ⟨fun n => connect_reads_fuel_disjoint ctx n g nr h,
   connect_reads_fuel_disjoint ctx (connectBound ctx g) g nr h⟩

/-- Witness: the disjointness theorem applied at the concrete grouper
fixture, where seed read a pulls in read b through site 10. -/
theorem grouper_alt_ref_disjoint_witness :
    (∀ n : Nat, Disjoint
        (connect_reads_fuel ctx6 n ⟨{"a"}, ∅⟩ ⟨[("a", -1)], []⟩).alt
        (connect_reads_fuel ctx6 n ⟨{"a"}, ∅⟩ ⟨[("a", -1)], []⟩).ref) ∧
    Disjoint (connect_reads ctx6 ⟨{"a"}, ∅⟩ ⟨[("a", -1)], []⟩).alt
      (connect_reads ctx6 ⟨{"a"}, ∅⟩ ⟨[("a", -1)], []⟩).ref :=
  grouper_alt_ref_disjoint ctx6 ⟨{"a"}, ∅⟩ ⟨[("a", -1)], []⟩ (by simp)

/-- The totalized closure terminates and is idempotent: it only grows the
haplotype sets, fuel equal to the number of still-unassignable read names
plus one already reaches the fixed point so extra iterations change
nothing, and running it again on its own output returns it unchanged. This
holds of the model that skips the unkeyed site_reads position at which the
source raises KeyError; the claim theorem below shows that error is
reachable, so the source itself can die before reaching this fixed
point. -/
theorem connect_reads_terminates_idempotent (ctx : GroupCtx) (g : Grouped)
    (nr : PairList) :
    (g.alt ⊆ (connect_reads ctx g nr).alt ∧ g.ref ⊆ (connect_reads ctx g nr).ref) ∧
    (∀ extra : Nat, connect_reads_fuel ctx (connectBound ctx g + extra) g nr =
      connect_reads ctx g nr) ∧
    connect_reads ctx (connect_reads ctx g nr) nr = connect_reads ctx g nr := by
  refine ⟨connect_reads_fuel_mono ctx (connectBound ctx g) g nr,
    connect_reads_fuel_ge ctx g nr, ?_⟩
  have hpass : connect_pass ctx (connect_reads ctx g nr) nr =
      (connect_reads ctx g nr, (⟨[], []⟩ : PairList)) :=
    connect_pass_absorb ctx g nr (connect_reads ctx g nr)
      (connect_pass_sub_connect_reads ctx g nr)
  show connect_reads ctx (connect_reads ctx g nr) nr = connect_reads ctx g nr
  set R := connect_reads ctx g nr with hR
  unfold connect_reads connectBound
  rw [connect_reads_fuel_succ, hpass]
  simp

/-- C7: the grouper closure does not terminate normally on every input. The
alt-seed loop of group_reads_by_haplotype keys site_reads by the stale last
het site while read_sites records the true match sites of each seed read,
so connect_reads can reach the unguarded site_reads[site.pos] lookup at a
position no loop ever keyed and die of an uncaught KeyError mid-closure,
instead of stopping when an iteration assigns no new read and yielding an
output to be idempotent on. On the concrete input, whose pair is accepted
as a seed but rejected by the overlap filter of the het-site loop, the
shared seeding produces exactly the stale-keyed state st7, the
exception-faithful closure and grouper return none, and the totalized
closure and grouper complete on the very same input. -/
theorem connect_reads_keyerror_mid_closure :
    (([siteA7, siteB7].foldlM (group_seed_site bam7 region7)
        (⟨[], [], []⟩ : GroupCtx)).map (fun c =>
      [rS].foldl (group_seed_alt bam7 [siteA7, siteB7])
        (c, (⟨∅, ∅⟩ : Grouped), (⟨[], []⟩ : PairList))) = some st7) ∧
    connect_readsE st7.1 st7.2.1 st7.2.2 = none ∧
    connect_reads st7.1 st7.2.1 st7.2.2 = st7.2.1 ∧
    group_reads_by_haplotypeE bam7 region7 ⟨[rS], []⟩ [siteA7, siteB7] = none ∧
    (group_reads_by_haplotype bam7 region7 ⟨[rS], []⟩ [siteA7, siteB7]).isSome = true := by
  exact ⟨by decide, by decide, by decide, rfl, rfl⟩
